import Mathlib

set_option maxHeartbeats 1600000

/-! Shallow embedding of the radix trie in src/radix.c / src/radix.h.

Bytes are modelled as natural numbers; the reserved terminator byte is 0
(the C nul).  A C string is the list of its non-nul content bytes; reading
it at an index at or past its end yields 0, matching the nul terminator
(so `List.getD _ _ 0` plays the role of indexing a nul-terminated string).
A `struct radix_trie *` sibling-linked list is modelled as a `List Node`:
the `sib` field is the list structure, `child` is the `children` field and
`len` is `substr.length`.  Allocation failure is modelled by an explicit
oracle `List Bool`, one entry consumed per `malloc`/growing `realloc`; an
exhausted oracle means every allocation succeeds.  The shrinking `realloc`
in `radix_trie_split` keeps the old block when it fails and so has no
functional effect; it does not consult the oracle. -/

inductive Node : Type where
  | mk (substr : List Nat) (children : List Node)
deriving Repr

def Node.substr : Node → List Nat
  | .mk s _ => s

def Node.children : Node → List Node
  | .mk _ c => c

/-- Allocation oracle: pop the outcome of the next allocation.  An empty
oracle means allocations always succeed. -/
def popA : List Bool → Bool × List Bool
  | [] => (true, [])
  | b :: r => (b, r)

/-- `radix_trie_diff(node, str)`: index of the first position where the
node's substring and the string differ, stopping also at the string's nul
and at the end of the substring. -/
def cdiff : List Nat → List Nat → Nat
  | [], _ => 0
  | c :: sub, str => if c = str.headD 0 ∧ str.headD 0 ≠ 0 then cdiff sub str.tail + 1 else 0

theorem cdiff_le_sub (sub str : List Nat) : cdiff sub str ≤ sub.length := by
  induction sub generalizing str with
  | nil => simp [cdiff]
  | cons c sub ih =>
    simp only [cdiff]
    split
    · have := ih str.tail
      simp only [List.length_cons]
      omega
    · simp

theorem cdiff_le_str (sub str : List Nat) : cdiff sub str ≤ str.length := by
  induction sub generalizing str with
  | nil => simp [cdiff]
  | cons c sub ih =>
    simp only [cdiff]
    split
    · rename_i h
      cases str with
      | nil => simp at h
      | cons a str =>
        have := ih str
        simp only [List.tail_cons, List.length_cons]
        omega
    · simp

theorem headD_eq_getD (l : List Nat) : l.headD 0 = l.getD 0 0 := by
  cases l <;> rfl

theorem cdiff_zero (sub str : List Nat) :
    cdiff sub str = 0 ↔ sub = [] ∨ ¬(sub.headD 0 = str.headD 0 ∧ str.headD 0 ≠ 0) := by
  cases sub with
  | nil => simp [cdiff]
  | cons c sub =>
    simp only [cdiff, List.headD_cons]
    split
    · rename_i h
      constructor
      · intro h0
        exact absurd h0 (Nat.succ_ne_zero _)
      · intro hc
        rcases hc with hc | hc
        · exact absurd hc (List.cons_ne_nil c sub)
        · exact absurd h hc
    · rename_i h
      exact iff_of_true rfl (Or.inr h)

theorem sizeOf_nat_list (l : List Nat) : 1 ≤ sizeOf l := by
  cases l <;> simp <;> omega

theorem sizeOf_node_list (l : List Node) : 1 ≤ sizeOf l := by
  cases l <;> simp <;> omega

theorem sizeOf_drop_le (d : Nat) (l : List Nat) : sizeOf (l.drop d) ≤ sizeOf l := by
  induction l generalizing d with
  | nil => simp
  | cons a l ih =>
    cases d with
    | zero => simp
    | succ d =>
      have := ih d
      simp only [List.drop_succ_cons]
      simp
      omega

/-- Result of `radix_trie_insert`: the nonzero-return flag, the updated
tree and the remaining allocation oracle. -/
structure InsRes where
  err  : Bool
  tree : List Node
  al   : List Bool

/-- `radix_trie_make_suffix`: allocate a terminal node for the remaining
suffix (nul terminator included) and link it in front of `pos`. -/
def radix_trie_make_suffix (al : List Bool) (pos : List Node) (str : List Nat) : InsRes :=
  match popA al with
  | (true, al1) => ⟨false, .mk (str ++ [0]) [] :: pos, al1⟩
  | (false, al1) => ⟨true, pos, al1⟩

/-- `radix_trie_split(node, diff)`: split the node's substring at `diff`;
the new prefix node takes over the node's place and the shrunk node
becomes its sole child. -/
def radix_trie_split (sub : List Nat) (ch : List Node) (d : Nat) : Node :=
  .mk (sub.take d) [.mk (sub.drop d) ch]

/-- `radix_trie_insert`: the C function's do/while loop rendered as a
recursion over the sibling list.  The walk inside `radix_trie_lsfind` is
the `headD 0 <` skip case; descending into `child` after an entire-substring
match and the continuation after a split are the recursive calls, exactly
as `radix_trie_try_split` advances `root` and `str`. -/
def radix_trie_insert : List Bool → List Node → List Nat → InsRes
  | al, [], str => radix_trie_make_suffix al [] str
  | al, .mk sub ch :: rest, str =>
    if h1 : sub.headD 0 < str.headD 0 then
      let r := radix_trie_insert al rest str
      ⟨r.err, .mk sub ch :: r.tree, r.al⟩
    else if h2 : str.headD 0 < sub.headD 0 then
      radix_trie_make_suffix al (.mk sub ch :: rest) str
    else
      if h3 : cdiff sub str < sub.length then
        if h4 : sub.getD (cdiff sub str) 0 = str.getD (cdiff sub str) 0 then
          ⟨false, .mk sub ch :: rest, al⟩
        else
          match popA al with
          | (false, al1) => ⟨true, .mk sub ch :: rest, al1⟩
          | (true, al1) =>
            let p := radix_trie_split sub ch (cdiff sub str)
            let r := radix_trie_insert al1 p.children (str.drop (cdiff sub str))
            ⟨r.err, .mk p.substr r.tree :: rest, r.al⟩
      else
        let r := radix_trie_insert al ch (str.drop sub.length)
        ⟨r.err, .mk sub r.tree :: rest, r.al⟩
termination_by _ ns str => str.length + sizeOf ns
decreasing_by
  · simp
  · have hd1 : 1 ≤ cdiff sub str := by
      rcases Nat.eq_zero_or_pos (cdiff sub str) with h0 | h0
      · exfalso
        apply h4
        rw [h0, ← headD_eq_getD, ← headD_eq_getD]
        omega
      · exact h0
    have hs1 := sizeOf_drop_le (cdiff sub str) sub
    have hs2 := cdiff_le_str sub str
    have hs3 := sizeOf_node_list rest
    simp [radix_trie_split, Node.children]
    omega
  · have h5 := cdiff_le_str sub str
    have h6 := sizeOf_nat_list sub
    have h7 := sizeOf_node_list rest
    simp
    omega

/-- `radix_trie_lookup`: walk down without mutating; member exactly when the
first differing position holds the nul in both the node and the query. -/
def radix_trie_lookup : List Node → List Nat → Bool
  | [], _ => false
  | .mk sub ch :: rest, str =>
    if sub.headD 0 < str.headD 0 then radix_trie_lookup rest str
    else
      if cdiff sub str = sub.length then radix_trie_lookup ch (str.drop (cdiff sub str))
      else decide (sub.getD (cdiff sub str) 0 = str.getD (cdiff sub str) 0)
termination_by ns str => str.length + sizeOf ns
decreasing_by
  · simp
  · have h5 := cdiff_le_str sub str
    have h6 := sizeOf_nat_list sub
    have h7 := sizeOf_node_list rest
    simp
    omega

/-- `radix_trie_match`: prefix query.  The body of the C do/while loop runs
at least once, so the empty tree answers false even for the empty query. -/
def radix_trie_match : List Node → List Nat → Bool
  | [], _ => false
  | .mk sub ch :: rest, pre =>
    if sub.headD 0 < pre.headD 0 then radix_trie_match rest pre
    else
      if cdiff sub pre < sub.length then decide (pre.getD (cdiff sub pre) 0 = 0)
      else if (pre.drop (cdiff sub pre)).headD 0 = 0 then true
      else radix_trie_match ch (pre.drop (cdiff sub pre))
termination_by ns pre => pre.length + sizeOf ns
decreasing_by
  · simp
  · have h5 := cdiff_le_str sub str
    have h6 := sizeOf_nat_list sub
    have h7 := sizeOf_node_list rest
    simp
    omega

/-- `radix_trie_fuse`: if the node has exactly one child, grow it (one
allocation, which may fail with -1) and absorb the child's substring and
children.  With no child or more than one child it is a no-op. -/
def radix_trie_fuse (al : List Bool) (sub : List Nat) (ch : List Node) :
    Int × Node × List Bool :=
  match ch with
  | [] => (0, .mk sub [], al)
  | [.mk csub cch] =>
    match popA al with
    | (true, al1) => (0, .mk (sub ++ csub) cch, al1)
    | (false, al1) => (-1, .mk sub [.mk csub cch], al1)
  | n1 :: n2 :: rest => (0, .mk sub (n1 :: n2 :: rest), al)

/-- Result of the recursive part of `radix_trie_delete`.  The `hit` flag
records that a node was just removed from this sibling list; it renders the
C code's `parent` pointer, which makes the caller one level up fuse itself
right after the removal. -/
structure DelRes where
  res  : Int
  tree : List Node
  al   : List Bool
  hit  : Bool

/-- Recursive body of `radix_trie_delete`: walk like lookup, splice out the
matched node, then try to fuse the parent with its possibly single
remaining child. -/
def delGo : List Bool → List Node → List Nat → DelRes
  | al, [], _ => ⟨0, [], al, false⟩
  | al, .mk sub ch :: rest, str =>
    if sub.headD 0 < str.headD 0 then
      let r := delGo al rest str
      ⟨r.res, .mk sub ch :: r.tree, r.al, r.hit⟩
    else
      if cdiff sub str < sub.length then
        if sub.getD (cdiff sub str) 0 = str.getD (cdiff sub str) 0 then
          ⟨0, rest, al, true⟩
        else ⟨0, .mk sub ch :: rest, al, false⟩
      else
        let r := delGo al ch (str.drop (cdiff sub str))
        if r.hit then
          let f := radix_trie_fuse r.al sub r.tree
          ⟨f.1, f.2.1 :: rest, f.2.2, false⟩
        else ⟨r.res, .mk sub r.tree :: rest, r.al, false⟩
termination_by _ ns str => str.length + sizeOf ns
decreasing_by
  · simp
  · have h5 := cdiff_le_str sub str
    have h6 := sizeOf_nat_list sub
    have h7 := sizeOf_node_list rest
    simp
    omega

/-- `radix_trie_delete`: the top-level call uses a dummy NULL `parent`, for
which `radix_trie_fuse` is a no-op, so it is the plain recursion. -/
def radix_trie_delete (al : List Bool) (t : List Node) (str : List Nat) :
    Int × List Node × List Bool :=
  let r := delGo al t str
  (r.res, r.tree, r.al)

/-- Terminal test used by the iterator: the last byte of the substring is
the nul (`!root->substr[root->len - 1]`). -/
def isTermSub (sub : List Nat) : Bool := sub.getD (sub.length - 1) 0 == 0

/-- `memcpy(&buf[i], src, src.length)` on a buffer that is long enough
(callers pass a source already clipped to the remaining space). -/
def writeAt (buf : List Nat) (i : Nat) (src : List Nat) : List Nat :=
  buf.take i ++ src ++ buf.drop (i + src.length)

/-- Reading a buffer as a nul-terminated C string. -/
def cstr (l : List Nat) : List Nat := l.takeWhile (· ≠ 0)

/-- `minzu` from radix.c. -/
def minzu (x y : Nat) : Nat := if x < y then x else y

/-- `radix_trie_iterate`: depth-first walk reconstructing each string in
the buffer.  The visitor takes the whole buffer and the closure state and
returns the stop signal plus the new state; a true signal models the
longjmp, short-circuiting every pending recursive call. -/
def radix_trie_iterate {σ : Type} (fn : List Nat → σ → Bool × σ) (L : Nat) :
    List Node → List Nat → σ → Nat → List Nat × σ × Bool
  | [], buf, s, _ => (buf, s, false)
  | .mk sub ch :: rest, buf, s, i =>
    let space := if L > i then L - i else 0
    let wlen := minzu space sub.length
    let buf1 := writeAt buf i (sub.take wlen)
    let vis :=
      if isTermSub sub then
        let buf2 := buf1.set (L - 1) 0
        let r := fn buf2 s
        (buf2, r.2, r.1)
      else (buf1, s, false)
    if vis.2.2 then vis
    else
      let c := radix_trie_iterate fn L ch vis.1 vis.2.1 (i + sub.length)
      if c.2.2 then c
      else radix_trie_iterate fn L rest c.1 c.2.1 i
termination_by ns _ _ _ => sizeOf ns
decreasing_by
  all_goals first | (simp; omega) | simp | omega

/-- `radix_trie_foreach`: returns the early-stop flag (1 or 0), the final
buffer contents and the final visitor state.  The buffer argument stands
for the caller-supplied buffer together with its length (`len` is the
list's length); the C stack buffer case is the caller passing a length-1024
buffer of arbitrary contents. -/
def radix_trie_foreach {σ : Type} (fn : List Nat → σ → Bool × σ)
    (t : List Node) (buf : List Nat) (s : σ) : Nat × List Nat × σ :=
  if buf.length = 0 then (0, buf, s)
  else
    let r := radix_trie_iterate fn buf.length t buf s 0
    (if r.2.2 then 1 else 0, r.1, r.2.1)

/-- Abstraction function: the set (ordered list) of strings stored in a
sibling list, in the depth-first order the iterator walks: a terminal
node's own string, then the strings continuing through its children, then
the later siblings. -/
def strs : List Node → List (List Nat)
  | [] => []
  | .mk sub ch :: rest =>
    (if isTermSub sub then [sub.dropLast] else []) ++ (strs ch).map (sub ++ ·) ++ strs rest
termination_by ns => sizeOf ns
decreasing_by
  all_goals first | (simp; omega) | simp | omega

/-- Well-formed substring: nonempty, and the nul appears at most as the
final byte. -/
def subOKb (s : List Nat) : Bool := !s.isEmpty && s.dropLast.all (· ≠ 0)

/-- Structural invariant of reachable trees: every substring is well
formed, terminal nodes are leaves, and sibling lists are strictly sorted
by leading byte. -/
def wfL : List Node → Bool
  | [] => true
  | .mk sub ch :: rest =>
    subOKb sub && (!isTermSub sub || ch.isEmpty) && wfL ch &&
    (match rest with
     | [] => true
     | .mk sub2 _ :: _ => decide (sub.headD 0 < sub2.headD 0)) &&
    wfL rest
termination_by ns => sizeOf ns
decreasing_by
  all_goals first | (simp; omega) | simp | omega

/-- The canonical-form property exactly as claimed: no non-terminal node
has exactly one child. -/
def noLoneChild : List Node → Bool
  | [] => true
  | .mk sub ch :: rest =>
    (isTermSub sub || decide (ch.length ≠ 1)) && noLoneChild ch && noLoneChild rest
termination_by ns => sizeOf ns
decreasing_by
  all_goals first | (simp; omega) | simp | omega

/-- Strengthened canonical form: every non-terminal node has at least two
children.  It implies `noLoneChild` and is what failure-free insert/delete
sequences preserve. -/
def canonB : List Node → Bool
  | [] => true
  | .mk sub ch :: rest =>
    (isTermSub sub || decide (2 ≤ ch.length)) && canonB ch && canonB rest
termination_by ns => sizeOf ns
decreasing_by
  all_goals first | (simp; omega) | simp | omega

/-- Trees reachable from the empty tree by insert and delete calls with
arbitrary allocation outcomes.  Keys are C strings, so they never contain
the reserved terminator byte. -/
inductive Reachable : List Node → Prop where
  | empty : Reachable []
  | ins (al : List Bool) (str : List Nat) {t : List Node} :
      Reachable t → (0 : Nat) ∉ str → Reachable (radix_trie_insert al t str).tree
  | del (al : List Bool) (str : List Nat) {t : List Node} :
      Reachable t → (0 : Nat) ∉ str → Reachable (radix_trie_delete al t str).2.1

/-- Trees reachable when every allocation succeeds (the empty oracle). -/
inductive ReachableOk : List Node → Prop where
  | empty : ReachableOk []
  | ins (str : List Nat) {t : List Node} :
      ReachableOk t → (0 : Nat) ∉ str → ReachableOk (radix_trie_insert [] t str).tree
  | del (str : List Nat) {t : List Node} :
      ReachableOk t → (0 : Nat) ∉ str → ReachableOk (radix_trie_delete [] t str).2.1

/-! Basic facts about nul-indexed reads (`getD _ 0`). -/

theorem getD_tail (l : List Nat) (j : Nat) : l.tail.getD j 0 = l.getD (j + 1) 0 := by
  cases l <;> simp [List.getD]

theorem getD_oob {l : List Nat} {j : Nat} (h : l.length ≤ j) : l.getD j 0 = 0 := by
  induction l generalizing j with
  | nil => simp
  | cons a l ih =>
    cases j with
    | zero => simp at h
    | succ j =>
      simp only [List.getD_cons_succ]
      exact ih (by simp at h; omega)

theorem getD_take {l : List Nat} {k j : Nat} (h : j < k) : (l.take k).getD j 0 = l.getD j 0 := by
  induction l generalizing k j with
  | nil => simp
  | cons a l ih =>
    cases k with
    | zero => omega
    | succ k =>
      cases j with
      | zero => simp
      | succ j => simpa using ih (by omega)

theorem getD_drop (l : List Nat) (k j : Nat) : (l.drop k).getD j 0 = l.getD (k + j) 0 := by
  induction l generalizing k with
  | nil => simp
  | cons a l ih =>
    cases k with
    | zero => simp
    | succ k => simpa [Nat.succ_add] using ih k

theorem getD_append_left {a : List Nat} (b : List Nat) {j : Nat} (h : j < a.length) :
    (a ++ b).getD j 0 = a.getD j 0 := by
  induction a generalizing j with
  | nil => simp at h
  | cons x a ih =>
    cases j with
    | zero => simp
    | succ j => simpa using ih (by simpa using h)

theorem getD_append_right {a : List Nat} (b : List Nat) {j : Nat} (h : a.length ≤ j) :
    (a ++ b).getD j 0 = b.getD (j - a.length) 0 := by
  induction a generalizing j with
  | nil => simp
  | cons x a ih =>
    cases j with
    | zero => simp at h
    | succ j => simpa using ih (by simpa using h)

theorem headD_append {a : List Nat} (b : List Nat) (h : a ≠ []) :
    (a ++ b).headD 0 = a.headD 0 := by
  cases a with
  | nil => exact absurd rfl h
  | cons x a => simp

theorem headD_drop (l : List Nat) (d : Nat) : (l.drop d).headD 0 = l.getD d 0 := by
  rw [headD_eq_getD, getD_drop]
  rfl

/-! Characterisation of `cdiff`. -/

theorem cdiff_nil_str (sub : List Nat) : cdiff sub [] = 0 := by
  cases sub <;> simp [cdiff]

theorem cdiff_getD_lt (sub str : List Nat) :
    ∀ j, j < cdiff sub str → sub.getD j 0 = str.getD j 0 ∧ str.getD j 0 ≠ 0 := by
  induction sub generalizing str with
  | nil => simp [cdiff]
  | cons c sub ih =>
    intro j hj
    simp only [cdiff] at hj
    split at hj
    · rename_i h
      cases j with
      | zero =>
        rw [List.getD_cons_zero, ← headD_eq_getD]
        exact ⟨h.1, h.2⟩
      | succ j =>
        have := ih str.tail j (by omega)
        rwa [getD_tail] at this
    · omega

theorem cdiff_stop {sub str : List Nat} (h : cdiff sub str < sub.length)
    (he : sub.getD (cdiff sub str) 0 = str.getD (cdiff sub str) 0) :
    str.getD (cdiff sub str) 0 = 0 := by
  induction sub generalizing str with
  | nil => simp at h
  | cons c sub ih =>
    by_cases hc : c = str.headD 0 ∧ str.headD 0 ≠ 0
    · have hd : cdiff (c :: sub) str = cdiff sub str.tail + 1 := by
        simp only [cdiff, if_pos hc]
      rw [hd] at h he ⊢
      rw [List.getD_cons_succ] at he
      rw [← getD_tail]
      rw [← getD_tail] at he
      refine ih ?_ he
      rw [List.length_cons] at h
      omega
    · have hd : cdiff (c :: sub) str = 0 := by
        simp only [cdiff, if_neg hc]
      rw [hd] at he ⊢
      rw [List.getD_cons_zero] at he
      rw [← headD_eq_getD] at he ⊢
      by_cases h0 : str.headD 0 = 0
      · exact h0
      · exact absurd ⟨he, h0⟩ hc

theorem cdiff_eq_len_imp {sub str : List Nat} (h : cdiff sub str = sub.length) :
    str.take sub.length = sub ∧ (0 : Nat) ∉ sub := by
  induction sub generalizing str with
  | nil => simp
  | cons c sub ih =>
    simp only [cdiff] at h
    split at h
    · rename_i hc
      cases str with
      | nil => simp at hc
      | cons s str =>
        simp only [List.headD_cons] at hc
        obtain ⟨h1, h2⟩ := @ih str (by simpa using h)
        refine ⟨?_, ?_⟩
        · simp [List.take_cons, h1, hc.1.symm]
        · simp only [List.mem_cons, not_or]
          exact ⟨by omega, h2⟩
    · rw [List.length_cons] at h
      omega

theorem cdiff_of_prefix {sub str : List Nat} (h : str.take sub.length = sub)
    (h0 : (0 : Nat) ∉ sub) : cdiff sub str = sub.length := by
  induction sub generalizing str with
  | nil => simp [cdiff]
  | cons c sub ih =>
    cases str with
    | nil => simp at h
    | cons s str =>
      simp only [List.length_cons, List.take_succ_cons, List.cons.injEq] at h
      simp only [List.mem_cons, not_or] at h0
      simp only [cdiff, List.headD_cons, List.tail_cons]
      rw [if_pos ⟨h.1.symm, by omega⟩]
      have := @ih str h.2 h0.2
      rw [this, List.length_cons]

theorem take_eq_of_getD {sub str : List Nat} {d : Nat} (h1 : d ≤ sub.length)
    (h2 : d ≤ str.length) (h : ∀ j, j < d → sub.getD j 0 = str.getD j 0) :
    sub.take d = str.take d := by
  apply List.ext_getElem
  · simp [Nat.min_eq_left h1, Nat.min_eq_left h2]
  · intro j hj hj2
    rw [List.getElem_take, List.getElem_take]
    have hd : j < d := by simpa [Nat.min_eq_left h1] using hj
    have := h j hd
    have e1 := List.getD_eq_getElem sub 0 (show j < sub.length by omega)
    have e2 := List.getD_eq_getElem str 0 (show j < str.length by omega)
    rw [e1, e2] at this
    exact this

theorem cdiff_match {sub str : List Nat} (h0 : (0 : Nat) ∉ str)
    (hlt : cdiff sub str < sub.length)
    (he : sub.getD (cdiff sub str) 0 = str.getD (cdiff sub str) 0) :
    cdiff sub str = str.length ∧ sub.take (cdiff sub str) = str ∧
      sub.getD (cdiff sub str) 0 = 0 := by
  have hz := cdiff_stop hlt he
  have hge : str.length ≤ cdiff sub str := by
    by_contra hc
    push_neg at hc
    have hmem : str.getD (cdiff sub str) 0 ∈ str := by
      rw [List.getD_eq_getElem str 0 (by omega)]
      exact List.getElem_mem (by omega)
    rw [hz] at hmem
    exact h0 hmem
  have hle := cdiff_le_str sub str
  have heq : cdiff sub str = str.length := by omega
  refine ⟨heq, ?_, by rw [he, hz]⟩
  have := take_eq_of_getD (d := cdiff sub str) (by omega) (by omega)
    (fun j hj => (cdiff_getD_lt sub str j hj).1)
  rw [this, heq, List.take_length]

/-! Well-formed substrings and the terminal test. -/

theorem zero_nmem_getD_iff {s : List Nat} :
    (0 : Nat) ∉ s ↔ ∀ j, j < s.length → s.getD j 0 ≠ 0 := by
  constructor
  · intro h j hj hz
    apply h
    rw [List.getD_eq_getElem s 0 hj] at hz
    rw [← hz]
    exact List.getElem_mem hj
  · intro h hm
    obtain ⟨j, hj, he⟩ := List.mem_iff_getElem.mp hm
    apply h j hj
    rw [List.getD_eq_getElem s 0 hj, he]

theorem subOK_ne_nil {s : List Nat} (h : subOKb s = true) : s ≠ [] := by
  intro he
  subst he
  simp [subOKb] at h

theorem getD_dropLast {s : List Nat} {j : Nat} (h : j + 1 < s.length) :
    s.dropLast.getD j 0 = s.getD j 0 := by
  rw [List.dropLast_eq_take, getD_take (by omega)]

theorem subOK_getD {s : List Nat} (h : subOKb s = true) :
    ∀ j, j + 1 < s.length → s.getD j 0 ≠ 0 := by
  intro j hj
  simp only [subOKb, Bool.and_eq_true, List.all_eq_true] at h
  have hmem : s.getD j 0 ∈ s.dropLast := by
    rw [← getD_dropLast hj]
    rw [List.getD_eq_getElem s.dropLast 0 (by rw [List.length_dropLast]; omega)]
    exact List.getElem_mem _
  have := h.2 _ hmem
  simpa using this

theorem subOKb_intro {s : List Nat} (h1 : s ≠ [])
    (h2 : ∀ j, j + 1 < s.length → s.getD j 0 ≠ 0) : subOKb s = true := by
  simp only [subOKb, Bool.and_eq_true, List.all_eq_true]
  constructor
  · simpa [List.isEmpty_iff] using h1
  · intro x hx
    obtain ⟨j, hj, he⟩ := List.mem_iff_getElem.mp hx
    rw [List.length_dropLast] at hj
    have : s.dropLast.getD j 0 = x := by
      rw [List.getD_eq_getElem s.dropLast 0 (by rw [List.length_dropLast]; omega), he]
    rw [getD_dropLast (by omega)] at this
    have := h2 j (by omega)
    simp only [decide_eq_true_eq]
    omega

theorem isTermSub_eq {s : List Nat} :
    isTermSub s = true ↔ s.getD (s.length - 1) 0 = 0 := by
  simp [isTermSub]

theorem nonterm_nz {s : List Nat} (h : subOKb s = true) (ht : isTermSub s = false) :
    (0 : Nat) ∉ s := by
  rw [zero_nmem_getD_iff]
  intro j hj
  by_cases hl : j + 1 < s.length
  · exact subOK_getD h j hl
  · have : j = s.length - 1 := by omega
    subst this
    intro hz
    rw [← isTermSub_eq] at hz
    rw [hz] at ht
    cases ht

theorem term_decomp {s : List Nat} (h : subOKb s = true) (ht : isTermSub s = true) :
    s = s.dropLast ++ [0] ∧ (0 : Nat) ∉ s.dropLast := by
  have hn := subOK_ne_nil h
  constructor
  · have hlen : 0 < s.length := List.length_pos.mpr hn
    have := List.dropLast_append_getLast hn
    rw [List.getLast_eq_getElem] at this
    rw [isTermSub_eq] at ht
    rw [List.getD_eq_getElem s 0 (by omega)] at ht
    rw [ht] at this
    exact this.symm
  · rw [zero_nmem_getD_iff]
    intro j hj
    rw [List.length_dropLast] at hj
    rw [getD_dropLast (by omega)]
    exact subOK_getD h j (by omega)

theorem headD_dropLast {s : List Nat} (h : s.dropLast ≠ []) :
    s.dropLast.headD 0 = s.headD 0 := by
  cases s with
  | nil => simp at h
  | cons a t =>
    cases t with
    | nil => simp at h
    | cons b u => simp

/-! The string set denoted by a tree. -/

theorem strs_nil : strs [] = [] := by
  simp [strs]

theorem strs_cons (sub : List Nat) (ch rest : List Node) :
    strs (.mk sub ch :: rest) =
      (if isTermSub sub then [sub.dropLast] else []) ++
        (strs ch).map (sub ++ ·) ++ strs rest := by
  simp [strs]

theorem mem_strs_cons {x : List Nat} {sub : List Nat} {ch rest : List Node} :
    x ∈ strs (.mk sub ch :: rest) ↔
      (isTermSub sub = true ∧ x = sub.dropLast) ∨
        (∃ y, y ∈ strs ch ∧ x = sub ++ y) ∨ x ∈ strs rest := by
  rw [strs_cons]
  simp only [List.mem_append, List.mem_map]
  constructor
  · rintro ((h | h) | h)
    · by_cases ht : isTermSub sub
      · simp [ht] at h
        exact Or.inl ⟨ht, h⟩
      · simp [ht] at h
    · obtain ⟨y, hy, he⟩ := h
      exact Or.inr (Or.inl ⟨y, hy, he.symm⟩)
    · exact Or.inr (Or.inr h)
  · rintro (⟨ht, he⟩ | ⟨y, hy, he⟩ | h)
    · exact Or.inl (Or.inl (by simp [ht, he]))
    · exact Or.inl (Or.inr ⟨y, hy, he.symm⟩)
    · exact Or.inr h

theorem strs_cons_append (n : Node) (rest : List Node) :
    strs (n :: rest) = strs [n] ++ strs rest := by
  cases n with
  | mk sub ch =>
    rw [strs_cons, strs_cons, strs_nil]
    simp

theorem mem_strs_ex {x : List Nat} {ns : List Node} (h : x ∈ strs ns) :
    ∃ n ∈ ns, x ∈ strs [n] := by
  induction ns with
  | nil => rw [strs_nil] at h; cases h
  | cons n rest ih =>
    rw [strs_cons_append, List.mem_append] at h
    rcases h with h | h
    · exact ⟨n, List.mem_cons_self n rest, h⟩
    · obtain ⟨m, hm, hx⟩ := ih h
      exact ⟨m, List.mem_cons_of_mem n hm, hx⟩

theorem head_of_mem_single {x sub : List Nat} {ch : List Node}
    (hs : subOKb sub = true) (h : x ∈ strs [.mk sub ch]) :
    (x = [] ∧ sub = [0]) ∨ (x ≠ [] ∧ x.headD 0 = sub.headD 0) := by
  rw [mem_strs_cons] at h
  rcases h with ⟨ht, he⟩ | ⟨y, _, he⟩ | h
  · by_cases hd : sub.dropLast = []
    · left
      have hn := subOK_ne_nil hs
      refine ⟨by rw [he, hd], ?_⟩
      cases sub with
      | nil => exact absurd rfl hn
      | cons a t =>
        have ht0 : t = [] := by
          have h2 := List.length_dropLast (a :: t)
          rw [hd] at h2
          simp at h2
          cases t with
          | nil => rfl
          | cons b u =>
            rw [List.length_cons] at h2
            omega
        subst ht0
        rw [isTermSub_eq] at ht
        simp at ht
        rw [ht]
    · right
      rw [he]
      exact ⟨hd, headD_dropLast hd⟩
  · right
    have hn := subOK_ne_nil hs
    rw [he]
    constructor
    · simp [hn]
    · exact headD_append y hn
  · rw [strs_nil] at h
    cases h

/-! Projections of the structural invariant. -/

theorem wfL_nil : wfL [] = true := by
  simp [wfL]

theorem wfL_cons_parts {sub : List Nat} {ch rest : List Node}
    (h : wfL (.mk sub ch :: rest) = true) :
    subOKb sub = true ∧ (isTermSub sub = true → ch = []) ∧ wfL ch = true ∧
      wfL rest = true ∧
      (∀ sub2 ch2 rest2, rest = .mk sub2 ch2 :: rest2 → sub.headD 0 < sub2.headD 0) := by
  cases rest with
  | nil =>
    simp only [wfL, Bool.and_eq_true] at h
    refine ⟨h.1.1.1.1, ?_, h.1.1.2, wfL_nil, by intro _ _ _ hc; cases hc⟩
    intro ht
    have := h.1.1.1.2
    rw [ht] at this
    simpa [List.isEmpty_iff] using this
  | cons m rest2 =>
    cases m with
    | mk sub2 ch2 =>
      simp only [wfL, Bool.and_eq_true] at h
      refine ⟨h.1.1.1.1, ?_, h.1.1.2, h.2, ?_⟩
      · intro ht
        have := h.1.1.1.2
        rw [ht] at this
        simpa [List.isEmpty_iff] using this
      · intro s3 c3 r3 he
        cases he
        simpa using h.1.2

theorem wfL_cons_intro {sub : List Nat} {ch rest : List Node}
    (h1 : subOKb sub = true) (h2 : isTermSub sub = true → ch = [])
    (h3 : wfL ch = true) (h4 : wfL rest = true)
    (h5 : ∀ sub2 ch2 rest2, rest = .mk sub2 ch2 :: rest2 → sub.headD 0 < sub2.headD 0) :
    wfL (.mk sub ch :: rest) = true := by
  cases rest with
  | nil =>
    simp only [wfL, Bool.and_eq_true]
    refine ⟨⟨⟨⟨h1, ?_⟩, h3⟩, trivial⟩, trivial⟩
    by_cases ht : isTermSub sub
    · rw [h2 ht]
      simp [ht]
    · simp [ht]
  | cons m rest2 =>
    cases m with
    | mk sub2 ch2 =>
      simp only [wfL, Bool.and_eq_true]
      refine ⟨⟨⟨⟨h1, ?_⟩, h3⟩, by simpa using h5 sub2 ch2 rest2 rfl⟩, h4⟩
      by_cases ht : isTermSub sub
      · rw [h2 ht]
        simp [ht]
      · simp [ht]

theorem wfL_rest_lt {sub : List Nat} {ch : List Node} :
    ∀ {rest : List Node}, wfL (.mk sub ch :: rest) = true →
      ∀ n ∈ rest, sub.headD 0 < n.substr.headD 0 := by
  intro rest
  induction rest generalizing sub ch with
  | nil => intro _ n hn; cases hn
  | cons m rest2 ih =>
    intro h n hn
    cases m with
    | mk sub2 ch2 =>
      obtain ⟨hs, ht, hc, hr, hadj⟩ := wfL_cons_parts h
      have hlt : sub.headD 0 < sub2.headD 0 := hadj sub2 ch2 rest2 rfl
      rcases List.mem_cons.mp hn with he | hm
      · subst he
        exact hlt
      · have := ih hr n hm
        calc sub.headD 0 < sub2.headD 0 := hlt
          _ < n.substr.headD 0 := this

theorem wfL_mem {ns : List Node} (h : wfL ns = true) :
    ∀ {sub ch}, Node.mk sub ch ∈ ns →
      subOKb sub = true ∧ (isTermSub sub = true → ch = []) ∧ wfL ch = true := by
  induction ns with
  | nil => intro _ _ hn; cases hn
  | cons m rest ih =>
    intro sub ch hn
    cases m with
    | mk sub1 ch1 =>
      obtain ⟨hs, ht, hc, hr, _⟩ := wfL_cons_parts h
      rcases List.mem_cons.mp hn with he | hm
      · cases he
        exact ⟨hs, ht, hc⟩
      · exact ih hr hm

theorem strs_head_lb {b : Nat} {ns : List Node} (hw : wfL ns = true)
    (hlb : ∀ n ∈ ns, b < n.substr.headD 0) {x : List Nat} (hx : x ∈ strs ns) :
    x ≠ [] ∧ b < x.headD 0 := by
  obtain ⟨n, hn, hxn⟩ := mem_strs_ex hx
  cases n with
  | mk sub ch =>
    have hs := (wfL_mem hw hn).1
    rcases head_of_mem_single hs hxn with ⟨he, hsub⟩ | ⟨hne, hh⟩
    · exfalso
      have := hlb _ hn
      rw [hsub] at this
      simp [Node.substr] at this
    · refine ⟨hne, ?_⟩
      rw [hh]
      exact hlb _ hn

/-! Helper facts for insertion. -/

theorem headD_append_nul (str : List Nat) : (str ++ [0]).headD 0 = str.headD 0 := by
  cases str <;> simp

theorem subOK_append_nul {str : List Nat} (h0 : (0 : Nat) ∉ str) :
    subOKb (str ++ [0]) = true := by
  apply subOKb_intro (by simp)
  intro j hj
  simp only [List.length_append, List.length_cons, List.length_nil] at hj
  rw [getD_append_left _ (by omega)]
  exact (zero_nmem_getD_iff.mp h0) j (by omega)

theorem isTermSub_append_nul (str : List Nat) : isTermSub (str ++ [0]) = true := by
  rw [isTermSub_eq]
  simp only [List.length_append, List.length_cons, List.length_nil]
  rw [getD_append_right _ (by omega)]
  simp

theorem strs_suffix_node (str : List Nat) : strs [Node.mk (str ++ [0]) []] = [str] := by
  rw [strs_cons, strs_nil]
  simp [isTermSub_append_nul, List.dropLast_concat]

theorem headD_take {l : List Nat} {d : Nat} (h : 1 ≤ d) : (l.take d).headD 0 = l.headD 0 := by
  cases l with
  | nil => simp
  | cons a t =>
    cases d with
    | zero => omega
    | succ d => simp

theorem isTermSub_drop {s : List Nat} {d : Nat} (h : d < s.length) :
    isTermSub (s.drop d) = isTermSub s := by
  simp only [isTermSub, List.length_drop]
  rw [getD_drop]
  have he : d + (s.length - d - 1) = s.length - 1 := by omega
  rw [he]

theorem subOK_drop {s : List Nat} (hs : subOKb s = true) {d : Nat} (h : d < s.length) :
    subOKb (s.drop d) = true := by
  apply subOKb_intro
  · intro he
    have := congrArg List.length he
    simp at this
    omega
  · intro j hj
    rw [List.length_drop] at hj
    rw [getD_drop]
    exact subOK_getD hs _ (by omega)

theorem subOK_take {s : List Nat} (hs : subOKb s = true) {d : Nat} (h1 : 1 ≤ d)
    (h2 : d < s.length) :
    subOKb (s.take d) = true ∧ isTermSub (s.take d) = false ∧ (0 : Nat) ∉ s.take d := by
  have hz : ∀ j, j < d → (s.take d).getD j 0 ≠ 0 := by
    intro j hj
    rw [getD_take hj]
    exact subOK_getD hs j (by omega)
  have hlen : (s.take d).length = d := by
    rw [List.length_take]
    omega
  have hok : subOKb (s.take d) = true := by
    apply subOKb_intro
    · intro he
      have := congrArg List.length he
      rw [hlen] at this
      simp at this
      omega
    · intro j hj
      rw [hlen] at hj
      exact hz j (by omega)
  refine ⟨hok, ?_, ?_⟩
  · rw [Bool.eq_false_iff]
    intro ht
    rw [isTermSub_eq, hlen] at ht
    exact hz (d - 1) (by omega) ht
  · rw [zero_nmem_getD_iff]
    intro j hj
    rw [hlen] at hj
    exact hz j hj

theorem not_term_of_nz {s : List Nat} (hn : s ≠ []) (h0 : (0 : Nat) ∉ s) :
    isTermSub s = false := by
  rw [Bool.eq_false_iff]
  intro ht
  rw [isTermSub_eq] at ht
  have hlen : 0 < s.length := List.length_pos.mpr hn
  exact (zero_nmem_getD_iff.mp h0) (s.length - 1) (by omega) ht

theorem zero_nmem_drop {s : List Nat} (h0 : (0 : Nat) ∉ s) (d : Nat) :
    (0 : Nat) ∉ s.drop d := by
  intro hm
  exact h0 ((List.drop_subset d s) hm)

theorem member_of_match {sub str : List Nat} (hs : subOKb sub = true)
    (h0 : (0 : Nat) ∉ str) (hlt : cdiff sub str < sub.length)
    (he : sub.getD (cdiff sub str) 0 = str.getD (cdiff sub str) 0) :
    isTermSub sub = true ∧ sub.dropLast = str := by
  obtain ⟨hlen, htake, hz⟩ := cdiff_match h0 hlt he
  have hd : cdiff sub str = sub.length - 1 := by
    by_contra hc
    exact subOK_getD hs _ (by omega) hz
  constructor
  · rw [isTermSub_eq, ← hd]
    exact hz
  · rw [List.dropLast_eq_take, ← hd]
    exact htake

theorem strs_split {sub : List Nat} {ch : List Node} (hs : subOKb sub = true)
    {d : Nat} (h1 : 1 ≤ d) (h2 : d < sub.length) :
    (strs [Node.mk (sub.drop d) ch]).map (sub.take d ++ ·) = strs [Node.mk sub ch] := by
  have hdm : sub.drop d ≠ [] := by
    intro he
    have := congrArg List.length he
    simp at this
    omega
  have hcomp : ∀ y : List Nat, sub.take d ++ (sub.drop d ++ y) = sub ++ y := by
    intro y
    rw [← List.append_assoc, List.take_append_drop]
  rw [strs_cons, strs_nil, strs_cons, strs_nil]
  rw [isTermSub_drop h2]
  by_cases ht : isTermSub sub
  · rw [if_pos ht, if_pos ht]
    simp only [List.append_nil, List.map_append, List.map_map, List.map_cons, List.map_nil]
    congr 1
    · congr 1
      rw [← List.dropLast_append_of_ne_nil _ hdm, List.take_append_drop]
    · exact List.map_congr_left (fun y _ => hcomp y)
  · rw [if_neg ht, if_neg ht]
    simp only [List.nil_append, List.append_nil, List.map_map]
    exact List.map_congr_left (fun y _ => hcomp y)

/-! Branch equations of `radix_trie_insert`. -/

theorem insert_eq_nil (al : List Bool) (str : List Nat) :
    radix_trie_insert al [] str = radix_trie_make_suffix al [] str := by
  simp [radix_trie_insert]

theorem insert_eq_skip {al : List Bool} {sub : List Nat} {ch rest : List Node} {str : List Nat}
    (h1 : sub.headD 0 < str.headD 0) :
    radix_trie_insert al (.mk sub ch :: rest) str =
      ⟨(radix_trie_insert al rest str).err,
        .mk sub ch :: (radix_trie_insert al rest str).tree,
        (radix_trie_insert al rest str).al⟩ := by
  rw [radix_trie_insert]
  rw [dif_pos h1]

theorem insert_eq_before {al : List Bool} {sub : List Nat} {ch rest : List Node} {str : List Nat}
    (h1 : ¬sub.headD 0 < str.headD 0) (h2 : str.headD 0 < sub.headD 0) :
    radix_trie_insert al (.mk sub ch :: rest) str =
      radix_trie_make_suffix al (.mk sub ch :: rest) str := by
  rw [radix_trie_insert]
  rw [dif_neg h1, dif_pos h2]

theorem insert_eq_member {al : List Bool} {sub : List Nat} {ch rest : List Node} {str : List Nat}
    (h1 : ¬sub.headD 0 < str.headD 0) (h2 : ¬str.headD 0 < sub.headD 0)
    (h3 : cdiff sub str < sub.length)
    (h4 : sub.getD (cdiff sub str) 0 = str.getD (cdiff sub str) 0) :
    radix_trie_insert al (.mk sub ch :: rest) str = ⟨false, .mk sub ch :: rest, al⟩ := by
  rw [radix_trie_insert]
  rw [dif_neg h1, dif_neg h2, dif_pos h3, dif_pos h4]

theorem insert_eq_splitfail {al al1 : List Bool} {sub : List Nat} {ch rest : List Node}
    {str : List Nat}
    (h1 : ¬sub.headD 0 < str.headD 0) (h2 : ¬str.headD 0 < sub.headD 0)
    (h3 : cdiff sub str < sub.length)
    (h4 : ¬sub.getD (cdiff sub str) 0 = str.getD (cdiff sub str) 0)
    (hpop : popA al = (false, al1)) :
    radix_trie_insert al (.mk sub ch :: rest) str = ⟨true, .mk sub ch :: rest, al1⟩ := by
  rw [radix_trie_insert]
  rw [dif_neg h1, dif_neg h2, dif_pos h3, dif_neg h4, hpop]

theorem insert_eq_splitgo {al al1 : List Bool} {sub : List Nat} {ch rest : List Node}
    {str : List Nat}
    (h1 : ¬sub.headD 0 < str.headD 0) (h2 : ¬str.headD 0 < sub.headD 0)
    (h3 : cdiff sub str < sub.length)
    (h4 : ¬sub.getD (cdiff sub str) 0 = str.getD (cdiff sub str) 0)
    (hpop : popA al = (true, al1)) :
    radix_trie_insert al (.mk sub ch :: rest) str =
      ⟨(radix_trie_insert al1 [.mk (sub.drop (cdiff sub str)) ch]
          (str.drop (cdiff sub str))).err,
        .mk (sub.take (cdiff sub str))
          (radix_trie_insert al1 [.mk (sub.drop (cdiff sub str)) ch]
            (str.drop (cdiff sub str))).tree :: rest,
        (radix_trie_insert al1 [.mk (sub.drop (cdiff sub str)) ch]
          (str.drop (cdiff sub str))).al⟩ := by
  rw [radix_trie_insert]
  rw [dif_neg h1, dif_neg h2, dif_pos h3, dif_neg h4, hpop]
  rfl

theorem insert_eq_descend {al : List Bool} {sub : List Nat} {ch rest : List Node}
    {str : List Nat}
    (h1 : ¬sub.headD 0 < str.headD 0) (h2 : ¬str.headD 0 < sub.headD 0)
    (h3 : ¬cdiff sub str < sub.length) :
    radix_trie_insert al (.mk sub ch :: rest) str =
      ⟨(radix_trie_insert al ch (str.drop sub.length)).err,
        .mk sub (radix_trie_insert al ch (str.drop sub.length)).tree :: rest,
        (radix_trie_insert al ch (str.drop sub.length)).al⟩ := by
  rw [radix_trie_insert]
  rw [dif_neg h1, dif_neg h2, dif_neg h3]

theorem strs_nonterm (sub : List Nat) (ch : List Node) (ht : isTermSub sub = false) :
    strs [Node.mk sub ch] = (strs ch).map (sub ++ ·) := by
  rw [strs_cons, strs_nil, ht]
  simp

/-- Combined correctness of `radix_trie_insert`: the result is well formed,
every new sibling head comes from the key or an existing node, a failed
call leaves the stored set untouched, and a successful call adds exactly
the key. -/
theorem insert_spec (al : List Bool) (ns : List Node) (str : List Nat) :
    wfL ns = true → (0 : Nat) ∉ str →
      wfL (radix_trie_insert al ns str).tree = true ∧
      (∀ n ∈ (radix_trie_insert al ns str).tree,
          n.substr.headD 0 = str.headD 0 ∨
            ∃ m ∈ ns, n.substr.headD 0 = m.substr.headD 0) ∧
      ((radix_trie_insert al ns str).err = true →
        strs (radix_trie_insert al ns str).tree = strs ns) ∧
      ((radix_trie_insert al ns str).err = false →
        ∀ x, x ∈ strs (radix_trie_insert al ns str).tree ↔ x ∈ strs ns ∨ x = str) := by
  induction al, ns, str using radix_trie_insert.induct with
  | case1 al str =>
    intro _ h0
    rw [insert_eq_nil]
    rcases hp : popA al with ⟨b, al1⟩
    cases b
    · have he : radix_trie_make_suffix al [] str = ⟨true, [], al1⟩ := by
        rw [radix_trie_make_suffix, hp]
      rw [he]
      refine ⟨wfL_nil, ?_, fun _ => rfl, ?_⟩
      · intro n hn; cases hn
      · intro hc; simp at hc
    · have he : radix_trie_make_suffix al [] str = ⟨false, [.mk (str ++ [0]) []], al1⟩ := by
        rw [radix_trie_make_suffix, hp]
      rw [he]
      refine ⟨?_, ?_, ?_, ?_⟩
      · exact wfL_cons_intro (subOK_append_nul h0) (fun _ => rfl) wfL_nil wfL_nil
          (by intro _ _ _ hc; cases hc)
      · intro n hn
        rcases List.mem_cons.mp hn with he2 | he2
        · subst he2
          left
          simp only [Node.substr]
          exact headD_append_nul str
        · cases he2
      · intro hc; simp at hc
      · intro _ x
        rw [strs_suffix_node, strs_nil]
        simp
  | case2 al sub ch rest str h1 ih =>
    intro hw h0
    obtain ⟨hs, hterm, hch, hrest, hadj⟩ := wfL_cons_parts hw
    obtain ⟨ihwf, ihheads, iherr, ihok⟩ := ih hrest h0
    rw [insert_eq_skip h1]
    dsimp only
    refine ⟨?_, ?_, ?_, ?_⟩
    · apply wfL_cons_intro hs hterm hch ihwf
      intro sub2 ch2 rest2 he
      have hmem : Node.mk sub2 ch2 ∈ (radix_trie_insert al rest str).tree := by
        rw [he]; exact List.mem_cons_self _ _
      rcases ihheads _ hmem with hh | ⟨m, hm, hh⟩
      · simp only [Node.substr] at hh
        rw [hh]
        exact h1
      · have hlt := wfL_rest_lt hw m hm
        simp only [Node.substr] at hh
        rw [hh]
        exact hlt
    · intro n hn
      rcases List.mem_cons.mp hn with he | hm
      · subst he
        exact Or.inr ⟨Node.mk sub ch, List.mem_cons_self _ _, rfl⟩
      · rcases ihheads n hm with hh | ⟨m, hm2, hh⟩
        · exact Or.inl hh
        · exact Or.inr ⟨m, List.mem_cons_of_mem _ hm2, hh⟩
    · intro herr
      rw [strs_cons_append (Node.mk sub ch) (radix_trie_insert al rest str).tree,
        strs_cons_append (Node.mk sub ch) rest, iherr herr]
    · intro herr x
      rw [strs_cons_append (Node.mk sub ch) (radix_trie_insert al rest str).tree,
        strs_cons_append (Node.mk sub ch) rest, List.mem_append, List.mem_append,
        ihok herr x]
      tauto
  | case3 al sub ch rest str h1 h2 =>
    intro hw h0
    rw [insert_eq_before h1 h2]
    rcases hp : popA al with ⟨b, al1⟩
    cases b
    · have he : radix_trie_make_suffix al (Node.mk sub ch :: rest) str
          = ⟨true, Node.mk sub ch :: rest, al1⟩ := by
        rw [radix_trie_make_suffix, hp]
      rw [he]
      refine ⟨hw, fun n hn => Or.inr ⟨n, hn, rfl⟩, fun _ => rfl, ?_⟩
      intro hc; simp at hc
    · have he : radix_trie_make_suffix al (Node.mk sub ch :: rest) str
          = ⟨false, .mk (str ++ [0]) [] :: Node.mk sub ch :: rest, al1⟩ := by
        rw [radix_trie_make_suffix, hp]
      rw [he]
      refine ⟨?_, ?_, ?_, ?_⟩
      · apply wfL_cons_intro (subOK_append_nul h0) (fun _ => rfl) wfL_nil hw
        intro sub2 ch2 rest2 he2
        simp only [List.cons.injEq, Node.mk.injEq] at he2
        obtain ⟨⟨rfl, rfl⟩, rfl⟩ := he2
        rw [headD_append_nul]
        exact h2
      · intro n hn
        rcases List.mem_cons.mp hn with he2 | hm
        · subst he2
          left
          simp only [Node.substr]
          exact headD_append_nul str
        · exact Or.inr ⟨n, hm, rfl⟩
      · intro hc; simp at hc
      · intro _ x
        rw [strs_cons_append (Node.mk (str ++ [0]) []) (Node.mk sub ch :: rest),
          strs_suffix_node]
        simp only [List.mem_append, List.mem_singleton]
        tauto
  | case4 al sub ch rest str h1 h2 h3 h4 =>
    intro hw h0
    obtain ⟨hs, hterm, hch, hrest, hadj⟩ := wfL_cons_parts hw
    rw [insert_eq_member h1 h2 h3 h4]
    dsimp only
    obtain ⟨htm, hdl⟩ := member_of_match hs h0 h3 h4
    refine ⟨hw, fun n hn => Or.inr ⟨n, hn, rfl⟩, by intro hc; simp at hc, ?_⟩
    intro _ x
    constructor
    · exact fun hx => Or.inl hx
    · rintro (hx | rfl)
      · exact hx
      · rw [mem_strs_cons]
        exact Or.inl ⟨htm, hdl.symm⟩
  | case5 al sub ch rest str h1 h2 h3 h4 al1 hpop =>
    intro hw h0
    rw [insert_eq_splitfail h1 h2 h3 h4 hpop]
    dsimp only
    exact ⟨hw, fun n hn => Or.inr ⟨n, hn, rfl⟩, fun _ => rfl, by intro hc; simp at hc⟩
  | case6 al sub ch rest str h1 h2 h3 h4 al1 hpop p ih =>
    intro hw h0
    obtain ⟨hs, hterm, hch, hrest, hadj⟩ := wfL_cons_parts hw
    have hd1 : 1 ≤ cdiff sub str := by
      rcases Nat.eq_zero_or_pos (cdiff sub str) with hz | hz
      · exfalso
        apply h4
        rw [hz, ← headD_eq_getD, ← headD_eq_getD]
        omega
      · exact hz
    have hwch : wfL [Node.mk (sub.drop (cdiff sub str)) ch] = true := by
      apply wfL_cons_intro (subOK_drop hs h3) ?_ hch wfL_nil (by intro _ _ _ hc; cases hc)
      intro ht
      rw [isTermSub_drop h3] at ht
      exact hterm ht
    have h0d : (0 : Nat) ∉ str.drop (cdiff sub str) := zero_nmem_drop h0 _
    have hpdef : p = radix_trie_split sub ch (cdiff sub str) := rfl
    rw [hpdef, radix_trie_split] at ih
    simp only [Node.children] at ih
    obtain ⟨ihwf, ihheads, iherr, ihok⟩ := ih hwch h0d
    obtain ⟨hstake, httake, hztake⟩ := subOK_take hs hd1 h3
    have htke : sub.take (cdiff sub str) = str.take (cdiff sub str) :=
      take_eq_of_getD (by omega) (cdiff_le_str sub str)
        (fun j hj => (cdiff_getD_lt sub str j hj).1)
    rw [insert_eq_splitgo h1 h2 h3 h4 hpop]
    dsimp only
    refine ⟨?_, ?_, ?_, ?_⟩
    · apply wfL_cons_intro hstake ?_ ihwf hrest ?_
      · intro ht
        rw [httake] at ht
        cases ht
      · intro sub2 ch2 rest2 he
        rw [headD_take hd1]
        exact hadj sub2 ch2 rest2 he
    · intro n hn
      rcases List.mem_cons.mp hn with he | hm
      · subst he
        refine Or.inr ⟨Node.mk sub ch, List.mem_cons_self _ _, ?_⟩
        simp only [Node.substr]
        exact headD_take hd1
      · exact Or.inr ⟨n, List.mem_cons_of_mem _ hm, rfl⟩
    · intro herr
      rw [strs_cons_append (Node.mk (sub.take (cdiff sub str))
            (radix_trie_insert al1 [Node.mk (sub.drop (cdiff sub str)) ch]
              (str.drop (cdiff sub str))).tree) rest,
        strs_cons_append (Node.mk sub ch) rest]
      congr 1
      rw [strs_nonterm _ _ httake, iherr herr, strs_split hs hd1 h3]
    · intro herr x
      rw [strs_cons_append (Node.mk (sub.take (cdiff sub str))
            (radix_trie_insert al1 [Node.mk (sub.drop (cdiff sub str)) ch]
              (str.drop (cdiff sub str))).tree) rest,
        strs_cons_append (Node.mk sub ch) rest, List.mem_append, List.mem_append,
        strs_nonterm _ _ httake]
      constructor
      · rintro (hx | hx)
        · rw [List.mem_map] at hx
          obtain ⟨y, hy, rfl⟩ := hx
          rcases (ihok herr y).mp hy with hy2 | rfl
          · refine Or.inl (Or.inl ?_)
            rw [← strs_split hs hd1 h3]
            exact List.mem_map.mpr ⟨y, hy2, rfl⟩
          · right
            rw [htke, List.take_append_drop]
        · exact Or.inl (Or.inr hx)
      · rintro ((hx | hx) | hxeq)
        · left
          rw [← strs_split hs hd1 h3] at hx
          rw [List.mem_map] at hx ⊢
          obtain ⟨y, hy, rfl⟩ := hx
          exact ⟨y, (ihok herr y).mpr (Or.inl hy), rfl⟩
        · exact Or.inr hx
        · refine Or.inl (List.mem_map.mpr
            ⟨str.drop (cdiff sub str), (ihok herr _).mpr (Or.inr rfl), ?_⟩)
          rw [htke, List.take_append_drop]
          exact hxeq.symm
  | case7 al sub ch rest str h1 h2 h3 ih =>
    intro hw h0
    obtain ⟨hs, hterm, hch, hrest, hadj⟩ := wfL_cons_parts hw
    have hdl : cdiff sub str = sub.length := by
      have := cdiff_le_sub sub str
      omega
    obtain ⟨htake, hzsub⟩ := cdiff_eq_len_imp hdl
    have hterm2 : isTermSub sub = false := not_term_of_nz (subOK_ne_nil hs) hzsub
    obtain ⟨ihwf, ihheads, iherr, ihok⟩ := ih hch (zero_nmem_drop h0 _)
    have key : sub ++ str.drop sub.length = str := by
      conv_rhs => rw [← List.take_append_drop sub.length str]
      rw [htake]
    rw [insert_eq_descend h1 h2 h3]
    dsimp only
    refine ⟨?_, ?_, ?_, ?_⟩
    · apply wfL_cons_intro hs ?_ ihwf hrest hadj
      intro ht
      rw [hterm2] at ht
      cases ht
    · intro n hn
      rcases List.mem_cons.mp hn with he | hm
      · subst he
        exact Or.inr ⟨Node.mk sub ch, List.mem_cons_self _ _, rfl⟩
      · exact Or.inr ⟨n, List.mem_cons_of_mem _ hm, rfl⟩
    · intro herr
      rw [strs_cons_append (Node.mk sub
            (radix_trie_insert al ch (str.drop sub.length)).tree) rest,
        strs_cons_append (Node.mk sub ch) rest]
      congr 1
      rw [strs_nonterm _ _ hterm2, strs_nonterm _ _ hterm2, iherr herr]
    · intro herr x
      rw [strs_cons_append (Node.mk sub
            (radix_trie_insert al ch (str.drop sub.length)).tree) rest,
        strs_cons_append (Node.mk sub ch) rest, List.mem_append, List.mem_append,
        strs_nonterm _ _ hterm2, strs_nonterm _ _ hterm2]
      constructor
      · rintro (hx | hx)
        · rw [List.mem_map] at hx
          obtain ⟨y, hy, rfl⟩ := hx
          rcases (ihok herr y).mp hy with hy2 | rfl
          · exact Or.inl (Or.inl (List.mem_map.mpr ⟨y, hy2, rfl⟩))
          · exact Or.inr key
        · exact Or.inl (Or.inr hx)
      · rintro ((hx | hx) | hxeq)
        · rw [List.mem_map] at hx ⊢
          obtain ⟨y, hy, rfl⟩ := hx
          exact Or.inl ⟨y, (ihok herr y).mpr (Or.inl hy), rfl⟩
        · exact Or.inr hx
        · exact Or.inl (List.mem_map.mpr
            ⟨str.drop sub.length, (ihok herr _).mpr (Or.inr rfl), key.trans hxeq.symm⟩)

/-! Sortedness of the stored set (ascending raw byte order). -/

theorem lex_nil {b : List Nat} (h : b ≠ []) : List.Lex (· < ·) [] b := by
  cases b with
  | nil => exact absurd rfl h
  | cons x t => exact List.Lex.nil

theorem lex_of_headD_lt {a b : List Nat} (ha : a ≠ []) (hb : b ≠ [])
    (h : a.headD 0 < b.headD 0) : List.Lex (· < ·) a b := by
  cases a with
  | nil => exact absurd rfl ha
  | cons x t =>
    cases b with
    | nil => exact absurd rfl hb
    | cons y u =>
      simp only [List.headD_cons] at h
      exact List.Lex.rel h

theorem lex_append_left {y y' : List Nat} (p : List Nat)
    (h : List.Lex (· < ·) y y') : List.Lex (· < ·) (p ++ y) (p ++ y') := by
  induction p with
  | nil => simpa using h
  | cons a p ih => exact List.Lex.cons ih

theorem lex_irrefl : ∀ l : List Nat, ¬List.Lex (· < ·) l l := by
  intro l h
  induction l with
  | nil => cases h
  | cons a t ih =>
    cases h with
    | cons h2 => exact ih h2
    | rel h2 => omega

theorem strs_sorted {ns : List Node} (hw : wfL ns = true) :
    (strs ns).Sorted (List.Lex (· < ·)) := by
  induction ns using strs.induct with
  | case1 => rw [strs_nil]; exact List.Pairwise.nil
  | case2 sub ch rest ihch ihrest =>
    obtain ⟨hs, hterm, hch, hrest, hadj⟩ := wfL_cons_parts hw
    have hsingle : (if isTermSub sub then [sub.dropLast] else []) ++
        (strs ch).map (sub ++ ·) = strs [Node.mk sub ch] := by
      rw [strs_cons, strs_nil, List.append_nil]
    show List.Pairwise _ _
    rw [strs_cons, List.pairwise_append, List.pairwise_append]
    refine ⟨⟨?_, ?_, ?_⟩, ihrest hrest, ?_⟩
    · by_cases ht : isTermSub sub <;> simp [ht]
    · exact List.Pairwise.map _ (fun _ _ h => lex_append_left sub h) (ihch hch)
    · intro a ha b hb
      by_cases ht : isTermSub sub
      · rw [hterm ht, strs_nil] at hb
        cases hb
      · rw [if_neg ht] at ha
        cases ha
    · intro a ha b hb
      have ha2 : a ∈ strs [Node.mk sub ch] := by
        rw [← hsingle]
        exact ha
      have hb2 := strs_head_lb hrest (wfL_rest_lt hw) hb
      rcases head_of_mem_single hs ha2 with ⟨rfl, hsub⟩ | ⟨hne, hh⟩
      · exact lex_nil hb2.1
      · apply lex_of_headD_lt hne hb2.1
        rw [hh]
        exact hb2.2

theorem strs_nodup {ns : List Node} (hw : wfL ns = true) : (strs ns).Nodup := by
  apply List.Pairwise.imp ?_ (strs_sorted hw)
  intro a b hab he
  subst he
  exact lex_irrefl a hab

/-! Branch equations of `radix_trie_lookup` and its correctness. -/

theorem lookup_eq_nil (str : List Nat) : radix_trie_lookup [] str = false := by
  rw [radix_trie_lookup]

theorem lookup_eq_skip {sub : List Nat} {ch rest : List Node} {str : List Nat}
    (h1 : sub.headD 0 < str.headD 0) :
    radix_trie_lookup (.mk sub ch :: rest) str = radix_trie_lookup rest str := by
  rw [radix_trie_lookup, if_pos h1]

theorem lookup_eq_descend {sub : List Nat} {ch rest : List Node} {str : List Nat}
    (h1 : ¬sub.headD 0 < str.headD 0) (h2 : cdiff sub str = sub.length) :
    radix_trie_lookup (.mk sub ch :: rest) str =
      radix_trie_lookup ch (str.drop (cdiff sub str)) := by
  rw [radix_trie_lookup, if_neg h1, if_pos h2]

theorem lookup_eq_stop {sub : List Nat} {ch rest : List Node} {str : List Nat}
    (h1 : ¬sub.headD 0 < str.headD 0) (h2 : ¬cdiff sub str = sub.length) :
    radix_trie_lookup (.mk sub ch :: rest) str =
      decide (sub.getD (cdiff sub str) 0 = str.getD (cdiff sub str) 0) := by
  rw [radix_trie_lookup, if_neg h1, if_neg h2]

theorem cdiff_append_nul {str : List Nat} (h0 : (0 : Nat) ∉ str) :
    cdiff (str ++ [0]) str = str.length := by
  induction str with
  | nil => simp [cdiff]
  | cons s str ih =>
    simp only [List.mem_cons, not_or] at h0
    have hu : cdiff ((s :: str) ++ [0]) (s :: str)
        = if s = s ∧ s ≠ 0 then cdiff (str ++ [0]) str + 1 else 0 := rfl
    rw [hu, if_pos ⟨rfl, fun h => h0.1 h.symm⟩, ih h0.2, List.length_cons]

theorem not_mem_strs_skip {sub : List Nat} {ch : List Node} {str : List Nat}
    (hs : subOKb sub = true) (h1 : sub.headD 0 < str.headD 0) :
    str ∉ strs [Node.mk sub ch] := by
  intro hm
  rcases head_of_mem_single hs hm with ⟨rfl, hsub⟩ | ⟨hne, hh⟩
  · rw [hsub] at h1
    simp at h1
  · rw [hh] at h1
    omega

theorem not_mem_strs_rest {sub : List Nat} {ch rest : List Node} {str : List Nat}
    (hw : wfL (.mk sub ch :: rest) = true)
    (h1 : ¬sub.headD 0 < str.headD 0) : str ∉ strs rest := by
  intro hm
  obtain ⟨hs, hterm, hch, hrest, hadj⟩ := wfL_cons_parts hw
  have := strs_head_lb hrest (wfL_rest_lt hw) hm
  omega

theorem lookup_iff {ns : List Node} {str : List Nat} (hw : wfL ns = true)
    (h0 : (0 : Nat) ∉ str) :
    radix_trie_lookup ns str = true ↔ str ∈ strs ns := by
  induction ns, str using radix_trie_lookup.induct with
  | case1 str =>
    rw [lookup_eq_nil, strs_nil]
    simp
  | case2 sub ch rest str h1 ih =>
    obtain ⟨hs, hterm, hch, hrest, hadj⟩ := wfL_cons_parts hw
    rw [lookup_eq_skip h1, strs_cons_append, List.mem_append, ih hrest h0]
    have := @not_mem_strs_skip sub ch str hs h1
    tauto
  | case3 sub ch rest str h1 h2 ih =>
    obtain ⟨hs, hterm, hch, hrest, hadj⟩ := wfL_cons_parts hw
    obtain ⟨htake, hzsub⟩ := cdiff_eq_len_imp h2
    have hterm2 : isTermSub sub = false := not_term_of_nz (subOK_ne_nil hs) hzsub
    have key : sub ++ str.drop sub.length = str := by
      conv_rhs => rw [← List.take_append_drop sub.length str]
      rw [htake]
    rw [h2] at ih
    rw [lookup_eq_descend h1 h2, h2, ih hch (zero_nmem_drop h0 _)]
    rw [mem_strs_cons]
    constructor
    · intro hy
      exact Or.inr (Or.inl ⟨str.drop sub.length, hy, key.symm⟩)
    · rintro (⟨ht, _⟩ | ⟨y, hy, he⟩ | hm)
      · rw [ht] at hterm2
        cases hterm2
      · have : y = str.drop sub.length := by
          have h3 : sub ++ y = sub ++ str.drop sub.length := by
            rw [key, ← he]
          exact List.append_cancel_left h3
        rwa [this] at hy
      · exact absurd hm (not_mem_strs_rest hw h1)
  | case4 sub ch rest str h1 h2 =>
    obtain ⟨hs, hterm, hch, hrest, hadj⟩ := wfL_cons_parts hw
    have hlt : cdiff sub str < sub.length := by
      have := cdiff_le_sub sub str
      omega
    rw [lookup_eq_stop h1 h2]
    simp only [decide_eq_true_eq]
    constructor
    · intro he
      obtain ⟨htm, hdl⟩ := member_of_match hs h0 hlt he
      rw [mem_strs_cons]
      exact Or.inl ⟨htm, hdl.symm⟩
    · intro hm
      rw [mem_strs_cons] at hm
      rcases hm with ⟨ht, he⟩ | ⟨y, hy, he⟩ | hm
      · have hd := term_decomp hs ht
        have hsub : sub = str ++ [0] := by
          rw [hd.1, ← he]
        have hc : cdiff sub str = str.length := by
          rw [hsub]
          exact cdiff_append_nul h0
        rw [hc]
        rw [hsub]
        rw [getD_append_right _ (by omega)]
        rw [getD_oob (le_refl _)]
        simp
      · have hch2 : ch ≠ [] := by
          intro hce
          rw [hce, strs_nil] at hy
          cases hy
        have hterm2 : isTermSub sub = false := by
          rw [Bool.eq_false_iff]
          intro ht
          exact hch2 (hterm ht)
        have hzsub := nonterm_nz hs hterm2
        have : cdiff sub str = sub.length := by
          apply cdiff_of_prefix ?_ hzsub
          rw [he, List.take_left]
        exact absurd this h2
      · exact absurd hm (not_mem_strs_rest hw h1)

/-! Deletion: fusing and the main specification. -/

theorem subOK_append {a b : List Nat} (h0a : (0 : Nat) ∉ a) (hb : subOKb b = true) :
    subOKb (a ++ b) = true ∧ isTermSub (a ++ b) = isTermSub b := by
  have hbne := subOK_ne_nil hb
  have hblen : 0 < b.length := List.length_pos.mpr hbne
  constructor
  · apply subOKb_intro (by simp [hbne])
    intro j hj
    rw [List.length_append] at hj
    by_cases hja : j < a.length
    · rw [getD_append_left _ hja]
      exact (zero_nmem_getD_iff.mp h0a) j hja
    · rw [getD_append_right _ (by omega)]
      exact subOK_getD hb _ (by omega)
  · simp only [isTermSub, List.length_append]
    rw [getD_append_right _ (by omega)]
    congr 2
    omega

theorem strs_fuse {sub csub : List Nat} {cch : List Node}
    (hs0 : (0 : Nat) ∉ sub) (hsne : sub ≠ []) (hcs : subOKb csub = true) :
    strs [Node.mk (sub ++ csub) cch] = strs [Node.mk sub [Node.mk csub cch]] := by
  have hterm2 : isTermSub sub = false := not_term_of_nz hsne hs0
  have hcne := subOK_ne_nil hcs
  have hterm3 : isTermSub (sub ++ csub) = isTermSub csub := (subOK_append hs0 hcs).2
  rw [strs_nonterm _ _ hterm2]
  rw [strs_cons, strs_nil, strs_cons, strs_nil, hterm3]
  by_cases ht : isTermSub csub
  · rw [if_pos ht, if_pos ht]
    simp only [List.append_nil, List.map_append, List.map_map, List.map_cons,
      List.map_nil, List.nil_append]
    congr 1
    · rw [List.dropLast_append_of_ne_nil _ hcne]
    · apply List.map_congr_left
      intro y _
      simp [Function.comp, List.append_assoc]
  · rw [if_neg ht, if_neg ht]
    simp only [List.nil_append, List.append_nil, List.map_map]
    apply List.map_congr_left
    intro y _
    simp [Function.comp, List.append_assoc]

theorem fuse_spec (al : List Bool) (sub : List Nat) (ch' : List Node)
    (hs : subOKb sub = true) (h0s : (0 : Nat) ∉ sub) (hwch : wfL ch' = true) :
    wfL [(radix_trie_fuse al sub ch').2.1] = true ∧
      (radix_trie_fuse al sub ch').2.1.substr.headD 0 = sub.headD 0 ∧
      strs [(radix_trie_fuse al sub ch').2.1] = strs [Node.mk sub ch'] ∧
      ((radix_trie_fuse al sub ch').1 = 0 ∨ (radix_trie_fuse al sub ch').1 = -1) := by
  have hsne := subOK_ne_nil hs
  have hterm2 : isTermSub sub = false := not_term_of_nz hsne h0s
  have hid : wfL [Node.mk sub ch'] = true := by
    apply wfL_cons_intro hs ?_ hwch wfL_nil (by intro _ _ _ hc; cases hc)
    intro ht
    rw [ht] at hterm2
    cases hterm2
  match ch' with
  | [] =>
    rw [radix_trie_fuse]
    exact ⟨hid, rfl, rfl, Or.inl rfl⟩
  | [Node.mk csub cch] =>
    obtain ⟨hcs, hcterm, hccw, _, _⟩ := wfL_cons_parts hwch
    rcases hp : popA al with ⟨b, al1⟩
    cases b
    · have he : radix_trie_fuse al sub [Node.mk csub cch]
          = (-1, Node.mk sub [Node.mk csub cch], al1) := by
        rw [radix_trie_fuse, hp]
      rw [he]
      exact ⟨hid, rfl, rfl, Or.inr rfl⟩
    · have he : radix_trie_fuse al sub [Node.mk csub cch]
          = (0, Node.mk (sub ++ csub) cch, al1) := by
        rw [radix_trie_fuse, hp]
      rw [he]
      obtain ⟨hok2, hterm3⟩ := subOK_append h0s hcs
      refine ⟨?_, ?_, ?_, Or.inl rfl⟩
      · apply wfL_cons_intro hok2 ?_ hccw wfL_nil (by intro _ _ _ hc; cases hc)
        intro ht
        rw [hterm3] at ht
        exact hcterm ht
      · simp only [Node.substr]
        exact headD_append _ hsne
      · exact strs_fuse h0s hsne hcs
  | n1 :: n2 :: rest2 =>
    rw [radix_trie_fuse]
    exact ⟨hid, rfl, rfl, Or.inl rfl⟩

theorem filter_eq_self_of_nmem {l : List (List Nat)} {a : List Nat} (h : a ∉ l) :
    l.filter (fun x => x ≠ a) = l := by
  apply List.filter_eq_self.mpr
  intro x hx
  simp only [ne_eq, decide_not, Bool.not_eq_true']
  rw [decide_eq_false_iff_not]
  intro he
  subst he
  exact h hx

theorem map_filter_ne (p : List Nat) (l : List (List Nat)) (a : List Nat) :
    (l.filter (fun y => y ≠ a)).map (p ++ ·) =
      (l.map (p ++ ·)).filter (fun x => x ≠ p ++ a) := by
  induction l with
  | nil => simp
  | cons y l ih =>
    by_cases hy : y = a
    · subst hy
      simp only [List.filter_cons, List.map_cons]
      simp only [ne_eq, decide_not] at ih ⊢
      simp [ih]
    · have hpy : ¬p ++ y = p ++ a := fun h => hy (List.append_cancel_left h)
      simp only [List.filter_cons, List.map_cons]
      simp only [ne_eq, decide_not] at ih ⊢
      simp [hy, hpy, ih]

/-! Branch equations of `delGo`. -/

theorem delGo_eq_nil (al : List Bool) (str : List Nat) :
    delGo al [] str = ⟨0, [], al, false⟩ := by
  rw [delGo]

theorem delGo_eq_skip {al : List Bool} {sub : List Nat} {ch rest : List Node} {str : List Nat}
    (h1 : sub.headD 0 < str.headD 0) :
    delGo al (.mk sub ch :: rest) str =
      ⟨(delGo al rest str).res, .mk sub ch :: (delGo al rest str).tree,
        (delGo al rest str).al, (delGo al rest str).hit⟩ := by
  rw [delGo, if_pos h1]

theorem delGo_eq_match {al : List Bool} {sub : List Nat} {ch rest : List Node} {str : List Nat}
    (h1 : ¬sub.headD 0 < str.headD 0) (h2 : cdiff sub str < sub.length)
    (h3 : sub.getD (cdiff sub str) 0 = str.getD (cdiff sub str) 0) :
    delGo al (.mk sub ch :: rest) str = ⟨0, rest, al, true⟩ := by
  rw [delGo, if_neg h1, if_pos h2, if_pos h3]

theorem delGo_eq_nomatch {al : List Bool} {sub : List Nat} {ch rest : List Node} {str : List Nat}
    (h1 : ¬sub.headD 0 < str.headD 0) (h2 : cdiff sub str < sub.length)
    (h3 : ¬sub.getD (cdiff sub str) 0 = str.getD (cdiff sub str) 0) :
    delGo al (.mk sub ch :: rest) str = ⟨0, .mk sub ch :: rest, al, false⟩ := by
  rw [delGo, if_neg h1, if_pos h2, if_neg h3]

theorem delGo_eq_descend {al : List Bool} {sub : List Nat} {ch rest : List Node} {str : List Nat}
    (h1 : ¬sub.headD 0 < str.headD 0) (h2 : ¬cdiff sub str < sub.length) :
    delGo al (.mk sub ch :: rest) str =
      if (delGo al ch (str.drop (cdiff sub str))).hit then
        ⟨(radix_trie_fuse (delGo al ch (str.drop (cdiff sub str))).al sub
            (delGo al ch (str.drop (cdiff sub str))).tree).1,
          (radix_trie_fuse (delGo al ch (str.drop (cdiff sub str))).al sub
            (delGo al ch (str.drop (cdiff sub str))).tree).2.1 :: rest,
          (radix_trie_fuse (delGo al ch (str.drop (cdiff sub str))).al sub
            (delGo al ch (str.drop (cdiff sub str))).tree).2.2, false⟩
      else
        ⟨(delGo al ch (str.drop (cdiff sub str))).res,
          .mk sub (delGo al ch (str.drop (cdiff sub str))).tree :: rest,
          (delGo al ch (str.drop (cdiff sub str))).al, false⟩ := by
  rw [delGo, if_neg h1, if_neg h2]

theorem wfL_cons_of_single {n : Node} {rest : List Node}
    (h1 : wfL [n] = true) (h2 : wfL rest = true)
    (h3 : ∀ sub2 ch2 rest2, rest = .mk sub2 ch2 :: rest2 → n.substr.headD 0 < sub2.headD 0) :
    wfL (n :: rest) = true := by
  cases n with
  | mk sub ch =>
    obtain ⟨hs, ht, hc, _, _⟩ := wfL_cons_parts h1
    exact wfL_cons_intro hs ht hc h2 (by
      intro s c r he
      have := h3 s c r he
      simpa [Node.substr] using this)

theorem not_mem_node_of_nomatch {sub : List Nat} {ch : List Node} {str : List Nat}
    (hs : subOKb sub = true) (hterm : isTermSub sub = true → ch = [])
    (h0 : (0 : Nat) ∉ str) (hlt : cdiff sub str < sub.length)
    (hne : ¬sub.getD (cdiff sub str) 0 = str.getD (cdiff sub str) 0) :
    str ∉ strs [Node.mk sub ch] := by
  intro hm
  rw [mem_strs_cons] at hm
  rcases hm with ⟨ht, he⟩ | ⟨y, hy, he⟩ | hm
  · have hd := term_decomp hs ht
    have hsub : sub = str ++ [0] := by
      rw [hd.1, ← he]
    apply hne
    have hc : cdiff sub str = str.length := by
      rw [hsub]
      exact cdiff_append_nul h0
    rw [hc, hsub, getD_append_right _ (by omega), getD_oob (le_refl _)]
    simp
  · have hch2 : ch ≠ [] := by
      intro hce
      rw [hce, strs_nil] at hy
      cases hy
    have hterm2 : isTermSub sub = false := by
      rw [Bool.eq_false_iff]
      intro ht
      exact hch2 (hterm ht)
    have hzsub := nonterm_nz hs hterm2
    have : cdiff sub str = sub.length := by
      apply cdiff_of_prefix ?_ hzsub
      rw [he, List.take_left]
    omega
  · rw [strs_nil] at hm
    cases hm

/-- Combined correctness of the deletion recursion: well-formedness is
preserved, sibling heads are a subset of the old ones, the stored set
loses exactly the key, the return value is never positive, and the `hit`
flag tracks whether this sibling list lost one node. -/
theorem delete_spec (al : List Bool) (ns : List Node) (str : List Nat) :
    wfL ns = true → (0 : Nat) ∉ str →
      wfL (delGo al ns str).tree = true ∧
      (∀ n ∈ (delGo al ns str).tree, ∃ m ∈ ns, n.substr.headD 0 = m.substr.headD 0) ∧
      strs (delGo al ns str).tree = (strs ns).filter (fun x => x ≠ str) ∧
      ((delGo al ns str).res = 0 ∨ (delGo al ns str).res = -1) ∧
      ((delGo al ns str).hit = true →
        (delGo al ns str).tree.length + 1 = ns.length ∧ (delGo al ns str).res = 0) ∧
      ((delGo al ns str).hit = false → (delGo al ns str).tree.length = ns.length) := by
  induction al, ns, str using delGo.induct with
  | case1 al str =>
    intro _ _
    rw [delGo_eq_nil]
    refine ⟨wfL_nil, ?_, ?_, Or.inl rfl, ?_, fun _ => rfl⟩
    · intro n hn; cases hn
    · rw [strs_nil]; rfl
    · intro hh; simp at hh
  | case2 al sub ch rest str h1 ih =>
    intro hw h0
    obtain ⟨hs, hterm, hch, hrest, hadj⟩ := wfL_cons_parts hw
    obtain ⟨ihwf, ihheads, ihstrs, ihres, ihhitT, ihhitF⟩ := ih hrest h0
    rw [delGo_eq_skip h1]
    dsimp only
    refine ⟨?_, ?_, ?_, ihres, ?_, ?_⟩
    · apply wfL_cons_intro hs hterm hch ihwf
      intro sub2 ch2 rest2 he
      have hmem : Node.mk sub2 ch2 ∈ (delGo al rest str).tree := by
        rw [he]; exact List.mem_cons_self _ _
      obtain ⟨m, hm, hh⟩ := ihheads _ hmem
      have hlt := wfL_rest_lt hw m hm
      simp only [Node.substr] at hh
      rw [hh]
      exact hlt
    · intro n hn
      rcases List.mem_cons.mp hn with he | hm
      · subst he
        exact ⟨Node.mk sub ch, List.mem_cons_self _ _, rfl⟩
      · obtain ⟨m, hm2, hh⟩ := ihheads n hm
        exact ⟨m, List.mem_cons_of_mem _ hm2, hh⟩
    · rw [strs_cons_append (Node.mk sub ch) (delGo al rest str).tree,
        strs_cons_append (Node.mk sub ch) rest, List.filter_append, ihstrs]
      congr 1
      exact (filter_eq_self_of_nmem (not_mem_strs_skip hs h1)).symm
    · intro hh
      obtain ⟨hlen, hres⟩ := ihhitT hh
      constructor
      · simp only [List.length_cons]
        omega
      · exact hres
    · intro hh
      have hlen := ihhitF hh
      simp only [List.length_cons]
      omega
  | case3 al sub ch rest str h1 h2 h3 =>
    intro hw h0
    obtain ⟨hs, hterm, hch, hrest, hadj⟩ := wfL_cons_parts hw
    obtain ⟨htm, hdl⟩ := member_of_match hs h0 h2 h3
    have hche : ch = [] := hterm htm
    rw [delGo_eq_match h1 h2 h3]
    dsimp only
    refine ⟨hrest, ?_, ?_, Or.inl rfl, ?_, ?_⟩
    · intro n hn
      exact ⟨n, List.mem_cons_of_mem _ hn, rfl⟩
    · rw [strs_cons_append (Node.mk sub ch) rest, List.filter_append]
      have hnode : strs [Node.mk sub ch] = [str] := by
        rw [strs_cons, strs_nil, if_pos htm, hche, strs_nil, hdl]
        simp
      rw [hnode]
      have h2f : ([str].filter (fun x => x ≠ str)) = [] := by simp
      rw [h2f]
      rw [filter_eq_self_of_nmem (not_mem_strs_rest hw h1)]
      simp
    · intro _
      exact ⟨by simp, rfl⟩
    · intro hh; simp at hh
  | case4 al sub ch rest str h1 h2 h3 =>
    intro hw h0
    obtain ⟨hs, hterm, hch, hrest, hadj⟩ := wfL_cons_parts hw
    rw [delGo_eq_nomatch h1 h2 h3]
    dsimp only
    refine ⟨hw, fun n hn => ⟨n, hn, rfl⟩, ?_, Or.inl rfl, ?_, fun _ => rfl⟩
    · rw [strs_cons_append (Node.mk sub ch) rest, List.filter_append]
      rw [filter_eq_self_of_nmem (not_mem_node_of_nomatch hs hterm h0 h2 h3)]
      rw [filter_eq_self_of_nmem (not_mem_strs_rest hw h1)]
    · intro hh; simp at hh
  | case5 al sub ch rest str h1 h2 r hhit ih =>
    intro hw h0
    obtain ⟨hs, hterm, hch, hrest, hadj⟩ := wfL_cons_parts hw
    have hdl : cdiff sub str = sub.length := by
      have := cdiff_le_sub sub str
      omega
    obtain ⟨htake, hzsub⟩ := cdiff_eq_len_imp hdl
    have hterm2 : isTermSub sub = false := not_term_of_nz (subOK_ne_nil hs) hzsub
    have key : sub ++ str.drop sub.length = str := by
      conv_rhs => rw [← List.take_append_drop sub.length str]
      rw [htake]
    obtain ⟨ihwf, ihheads, ihstrs, ihres, ihhitT, ihhitF⟩ := ih hch (zero_nmem_drop h0 _)
    have hhit2 : (delGo al ch (str.drop (cdiff sub str))).hit = true := hhit
    rw [delGo_eq_descend h1 h2]
    rw [hdl] at ihwf ihheads ihstrs ihres ihhitT ihhitF hhit2 ⊢
    rw [if_pos hhit2]
    obtain ⟨hlen, hres0⟩ := ihhitT hhit2
    obtain ⟨fwf, fhead, fstrs, fres⟩ := fuse_spec (delGo al ch (str.drop sub.length)).al
      sub (delGo al ch (str.drop sub.length)).tree hs hzsub ihwf
    dsimp only
    refine ⟨?_, ?_, ?_, fres, ?_, ?_⟩
    · apply wfL_cons_of_single fwf hrest
      intro s c r2 he
      rw [fhead]
      exact hadj s c r2 he
    · intro n hn
      rcases List.mem_cons.mp hn with he | hm
      · subst he
        refine ⟨Node.mk sub ch, List.mem_cons_self _ _, ?_⟩
        simp only [Node.substr]
        exact fhead
      · exact ⟨n, List.mem_cons_of_mem _ hm, rfl⟩
    · rw [strs_cons_append (radix_trie_fuse (delGo al ch (str.drop sub.length)).al sub
          (delGo al ch (str.drop sub.length)).tree).2.1 rest,
        fstrs, strs_cons_append (Node.mk sub ch) rest, List.filter_append]
      congr 1
      · rw [strs_nonterm _ _ hterm2, strs_nonterm _ _ hterm2, ihstrs]
        rw [map_filter_ne, key]
      · exact (filter_eq_self_of_nmem (not_mem_strs_rest hw h1)).symm
    · intro hh; simp at hh
    · intro _
      simp only [List.length_cons]
  | case6 al sub ch rest str h1 h2 r hhit ih =>
    intro hw h0
    obtain ⟨hs, hterm, hch, hrest, hadj⟩ := wfL_cons_parts hw
    have hdl : cdiff sub str = sub.length := by
      have := cdiff_le_sub sub str
      omega
    obtain ⟨htake, hzsub⟩ := cdiff_eq_len_imp hdl
    have hterm2 : isTermSub sub = false := not_term_of_nz (subOK_ne_nil hs) hzsub
    have key : sub ++ str.drop sub.length = str := by
      conv_rhs => rw [← List.take_append_drop sub.length str]
      rw [htake]
    obtain ⟨ihwf, ihheads, ihstrs, ihres, ihhitT, ihhitF⟩ := ih hch (zero_nmem_drop h0 _)
    have hhit2 : (delGo al ch (str.drop (cdiff sub str))).hit = false :=
      Bool.eq_false_iff.mpr hhit
    rw [delGo_eq_descend h1 h2]
    rw [hdl] at ihwf ihheads ihstrs ihres ihhitT ihhitF hhit2 ⊢
    rw [if_neg (by rw [hhit2]; simp)]
    have hlen := ihhitF hhit2
    dsimp only
    refine ⟨?_, ?_, ?_, ihres, ?_, ?_⟩
    · apply wfL_cons_intro hs ?_ ihwf hrest hadj
      intro ht
      rw [hterm2] at ht
      cases ht
    · intro n hn
      rcases List.mem_cons.mp hn with he | hm
      · subst he
        exact ⟨Node.mk sub ch, List.mem_cons_self _ _, rfl⟩
      · exact ⟨n, List.mem_cons_of_mem _ hm, rfl⟩
    · rw [strs_cons_append (Node.mk sub (delGo al ch (str.drop sub.length)).tree) rest,
        strs_cons_append (Node.mk sub ch) rest, List.filter_append]
      congr 1
      · rw [strs_nonterm _ _ hterm2, strs_nonterm _ _ hterm2, ihstrs]
        rw [map_filter_ne, key]
      · exact (filter_eq_self_of_nmem (not_mem_strs_rest hw h1)).symm
    · intro hh; simp at hh
    · intro _
      simp only [List.length_cons]

/-! Canonical form: projections and preservation. -/

theorem canonB_nil : canonB [] = true := by
  rw [canonB]

theorem canonB_cons_parts {sub : List Nat} {ch rest : List Node}
    (h : canonB (.mk sub ch :: rest) = true) :
    (isTermSub sub = true ∨ 2 ≤ ch.length) ∧ canonB ch = true ∧ canonB rest = true := by
  rw [canonB] at h
  simp only [Bool.and_eq_true, Bool.or_eq_true, decide_eq_true_eq] at h
  exact ⟨h.1.1, h.1.2, h.2⟩

theorem canonB_cons_intro {sub : List Nat} {ch rest : List Node}
    (h1 : isTermSub sub = true ∨ 2 ≤ ch.length) (h2 : canonB ch = true)
    (h3 : canonB rest = true) : canonB (.mk sub ch :: rest) = true := by
  rw [canonB]
  simp only [Bool.and_eq_true, Bool.or_eq_true, decide_eq_true_eq]
  exact ⟨⟨h1, h2⟩, h3⟩

theorem insert_len_ge (al : List Bool) (ns : List Node) (str : List Nat) :
    ns.length ≤ (radix_trie_insert al ns str).tree.length := by
  induction al, ns, str using radix_trie_insert.induct with
  | case1 al str =>
    rw [insert_eq_nil]
    rcases hp : popA al with ⟨b, al1⟩
    cases b
    · rw [show radix_trie_make_suffix al [] str = ⟨true, [], al1⟩ by
        rw [radix_trie_make_suffix, hp]]
    · rw [show radix_trie_make_suffix al [] str = ⟨false, [.mk (str ++ [0]) []], al1⟩ by
        rw [radix_trie_make_suffix, hp]]
      simp
  | case2 al sub ch rest str h1 ih =>
    rw [insert_eq_skip h1]
    simp only [List.length_cons]
    omega
  | case3 al sub ch rest str h1 h2 =>
    rw [insert_eq_before h1 h2]
    rcases hp : popA al with ⟨b, al1⟩
    cases b
    · rw [show radix_trie_make_suffix al (Node.mk sub ch :: rest) str
          = ⟨true, Node.mk sub ch :: rest, al1⟩ by rw [radix_trie_make_suffix, hp]]
    · rw [show radix_trie_make_suffix al (Node.mk sub ch :: rest) str
          = ⟨false, .mk (str ++ [0]) [] :: Node.mk sub ch :: rest, al1⟩ by
        rw [radix_trie_make_suffix, hp]]
      simp
  | case4 al sub ch rest str h1 h2 h3 h4 =>
    rw [insert_eq_member h1 h2 h3 h4]
  | case5 al sub ch rest str h1 h2 h3 h4 al1 hpop =>
    rw [insert_eq_splitfail h1 h2 h3 h4 hpop]
  | case6 al sub ch rest str h1 h2 h3 h4 al1 hpop p ih =>
    rw [insert_eq_splitgo h1 h2 h3 h4 hpop]
    simp
  | case7 al sub ch rest str h1 h2 h3 ih =>
    rw [insert_eq_descend h1 h2 h3]
    simp

theorem insert_new_head (al : List Bool) (ns : List Node) (str : List Nat) :
    (∀ n ∈ ns, n.substr.headD 0 ≠ str.headD 0) →
      (radix_trie_insert al ns str).err = false →
        (radix_trie_insert al ns str).tree.length = ns.length + 1 := by
  induction al, ns, str using radix_trie_insert.induct with
  | case1 al str =>
    intro _ herr
    rw [insert_eq_nil] at herr ⊢
    rcases hp : popA al with ⟨b, al1⟩
    cases b
    · rw [show radix_trie_make_suffix al [] str = ⟨true, [], al1⟩ by
        rw [radix_trie_make_suffix, hp]] at herr
      simp at herr
    · rw [show radix_trie_make_suffix al [] str = ⟨false, [.mk (str ++ [0]) []], al1⟩ by
        rw [radix_trie_make_suffix, hp]]
      simp
  | case2 al sub ch rest str h1 ih =>
    intro hne herr
    rw [insert_eq_skip h1] at herr ⊢
    dsimp only at herr ⊢
    have := ih (fun n hn => hne n (List.mem_cons_of_mem _ hn)) herr
    simp only [List.length_cons]
    omega
  | case3 al sub ch rest str h1 h2 =>
    intro _ herr
    rw [insert_eq_before h1 h2] at herr ⊢
    rcases hp : popA al with ⟨b, al1⟩
    cases b
    · rw [show radix_trie_make_suffix al (Node.mk sub ch :: rest) str
          = ⟨true, Node.mk sub ch :: rest, al1⟩ by rw [radix_trie_make_suffix, hp]] at herr
      simp at herr
    · rw [show radix_trie_make_suffix al (Node.mk sub ch :: rest) str
          = ⟨false, .mk (str ++ [0]) [] :: Node.mk sub ch :: rest, al1⟩ by
        rw [radix_trie_make_suffix, hp]]
      simp
  | case4 al sub ch rest str h1 h2 h3 h4 =>
    intro hne _
    exfalso
    apply hne (Node.mk sub ch) (List.mem_cons_self _ _)
    simp only [Node.substr]
    omega
  | case5 al sub ch rest str h1 h2 h3 h4 al1 hpop =>
    intro hne _
    exfalso
    apply hne (Node.mk sub ch) (List.mem_cons_self _ _)
    simp only [Node.substr]
    omega
  | case6 al sub ch rest str h1 h2 h3 h4 al1 hpop p ih =>
    intro hne _
    exfalso
    apply hne (Node.mk sub ch) (List.mem_cons_self _ _)
    simp only [Node.substr]
    omega
  | case7 al sub ch rest str h1 h2 h3 ih =>
    intro hne _
    exfalso
    apply hne (Node.mk sub ch) (List.mem_cons_self _ _)
    simp only [Node.substr]
    omega

theorem insert_canon (al : List Bool) (ns : List Node) (str : List Nat) :
    wfL ns = true → canonB ns = true → (0 : Nat) ∉ str →
      (radix_trie_insert al ns str).err = false →
        canonB (radix_trie_insert al ns str).tree = true := by
  induction al, ns, str using radix_trie_insert.induct with
  | case1 al str =>
    intro _ _ _ herr
    rw [insert_eq_nil] at herr ⊢
    rcases hp : popA al with ⟨b, al1⟩
    cases b
    · rw [show radix_trie_make_suffix al [] str = ⟨true, [], al1⟩ by
        rw [radix_trie_make_suffix, hp]] at herr
      simp at herr
    · rw [show radix_trie_make_suffix al [] str = ⟨false, [.mk (str ++ [0]) []], al1⟩ by
        rw [radix_trie_make_suffix, hp]]
      exact canonB_cons_intro (Or.inl (isTermSub_append_nul str)) canonB_nil canonB_nil
  | case2 al sub ch rest str h1 ih =>
    intro hw hc h0 herr
    obtain ⟨hs, hterm, hch, hrest, hadj⟩ := wfL_cons_parts hw
    obtain ⟨hcn, hcch, hcrest⟩ := canonB_cons_parts hc
    rw [insert_eq_skip h1] at herr ⊢
    dsimp only at herr ⊢
    exact canonB_cons_intro hcn hcch (ih hrest hcrest h0 herr)
  | case3 al sub ch rest str h1 h2 =>
    intro hw hc h0 herr
    rw [insert_eq_before h1 h2] at herr ⊢
    rcases hp : popA al with ⟨b, al1⟩
    cases b
    · rw [show radix_trie_make_suffix al (Node.mk sub ch :: rest) str
          = ⟨true, Node.mk sub ch :: rest, al1⟩ by rw [radix_trie_make_suffix, hp]] at herr
      simp at herr
    · rw [show radix_trie_make_suffix al (Node.mk sub ch :: rest) str
          = ⟨false, .mk (str ++ [0]) [] :: Node.mk sub ch :: rest, al1⟩ by
        rw [radix_trie_make_suffix, hp]]
      exact canonB_cons_intro (Or.inl (isTermSub_append_nul str)) canonB_nil hc
  | case4 al sub ch rest str h1 h2 h3 h4 =>
    intro _ hc _ _
    rw [insert_eq_member h1 h2 h3 h4]
    exact hc
  | case5 al sub ch rest str h1 h2 h3 h4 al1 hpop =>
    intro _ _ _ herr
    rw [insert_eq_splitfail h1 h2 h3 h4 hpop] at herr
    simp at herr
  | case6 al sub ch rest str h1 h2 h3 h4 al1 hpop p ih =>
    intro hw hc h0 herr
    obtain ⟨hs, hterm, hch, hrest, hadj⟩ := wfL_cons_parts hw
    obtain ⟨hcn, hcch, hcrest⟩ := canonB_cons_parts hc
    have hd1 : 1 ≤ cdiff sub str := by
      rcases Nat.eq_zero_or_pos (cdiff sub str) with hz | hz
      · exfalso
        apply h4
        rw [hz, ← headD_eq_getD, ← headD_eq_getD]
        omega
      · exact hz
    rw [insert_eq_splitgo h1 h2 h3 h4 hpop] at herr ⊢
    dsimp only at herr ⊢
    have hcrem : canonB [Node.mk (sub.drop (cdiff sub str)) ch] = true := by
      apply canonB_cons_intro ?_ hcch canonB_nil
      rw [isTermSub_drop h3]
      exact hcn
    have hwrem : wfL [Node.mk (sub.drop (cdiff sub str)) ch] = true := by
      apply wfL_cons_intro (subOK_drop hs h3) ?_ hch wfL_nil (by intro _ _ _ hcx; cases hcx)
      intro ht
      rw [isTermSub_drop h3] at ht
      exact hterm ht
    have hpdef : p = radix_trie_split sub ch (cdiff sub str) := rfl
    rw [hpdef, radix_trie_split] at ih
    simp only [Node.children] at ih
    have hcr := ih hwrem hcrem (zero_nmem_drop h0 _) herr
    have hnehead : ∀ n ∈ [Node.mk (sub.drop (cdiff sub str)) ch],
        n.substr.headD 0 ≠ (str.drop (cdiff sub str)).headD 0 := by
      intro n hn
      rcases List.mem_cons.mp hn with he | hm
      · subst he
        simp only [Node.substr]
        rw [headD_drop, headD_drop]
        exact h4
      · cases hm
    have hlenr := insert_new_head al1 [Node.mk (sub.drop (cdiff sub str)) ch]
      (str.drop (cdiff sub str)) hnehead herr
    simp only [List.length_cons, List.length_nil] at hlenr
    apply canonB_cons_intro ?_ hcr hcrest
    right
    omega
  | case7 al sub ch rest str h1 h2 h3 ih =>
    intro hw hc h0 herr
    obtain ⟨hs, hterm, hch, hrest, hadj⟩ := wfL_cons_parts hw
    obtain ⟨hcn, hcch, hcrest⟩ := canonB_cons_parts hc
    have hdl : cdiff sub str = sub.length := by
      have := cdiff_le_sub sub str
      omega
    obtain ⟨htake, hzsub⟩ := cdiff_eq_len_imp hdl
    have hterm2 : isTermSub sub = false := not_term_of_nz (subOK_ne_nil hs) hzsub
    rw [insert_eq_descend h1 h2 h3] at herr ⊢
    dsimp only at herr ⊢
    apply canonB_cons_intro ?_ (ih hch hcch (zero_nmem_drop h0 _) herr) hcrest
    right
    have hle := insert_len_ge al ch (str.drop sub.length)
    rcases hcn with ht | hlen
    · rw [ht] at hterm2
      cases hterm2
    · omega

theorem delete_canon (al : List Bool) (ns : List Node) (str : List Nat) :
    wfL ns = true → canonB ns = true → (0 : Nat) ∉ str →
      (delGo al ns str).res = 0 →
        canonB (delGo al ns str).tree = true := by
  induction al, ns, str using delGo.induct with
  | case1 al str =>
    intro _ _ _ _
    rw [delGo_eq_nil]
    exact canonB_nil
  | case2 al sub ch rest str h1 ih =>
    intro hw hc h0 hres
    obtain ⟨hs, hterm, hch, hrest, hadj⟩ := wfL_cons_parts hw
    obtain ⟨hcn, hcch, hcrest⟩ := canonB_cons_parts hc
    rw [delGo_eq_skip h1] at hres ⊢
    dsimp only at hres ⊢
    exact canonB_cons_intro hcn hcch (ih hrest hcrest h0 hres)
  | case3 al sub ch rest str h1 h2 h3 =>
    intro _ hc _ _
    rw [delGo_eq_match h1 h2 h3]
    exact (canonB_cons_parts hc).2.2
  | case4 al sub ch rest str h1 h2 h3 =>
    intro _ hc _ _
    rw [delGo_eq_nomatch h1 h2 h3]
    exact hc
  | case5 al sub ch rest str h1 h2 r hhit ih =>
    intro hw hc h0 hres
    obtain ⟨hs, hterm, hch, hrest, hadj⟩ := wfL_cons_parts hw
    obtain ⟨hcn, hcch, hcrest⟩ := canonB_cons_parts hc
    have hdl : cdiff sub str = sub.length := by
      have := cdiff_le_sub sub str
      omega
    obtain ⟨htake, hzsub⟩ := cdiff_eq_len_imp hdl
    have hterm2 : isTermSub sub = false := not_term_of_nz (subOK_ne_nil hs) hzsub
    have hch2 : 2 ≤ ch.length := by
      rcases hcn with ht | h
      · rw [ht] at hterm2
        cases hterm2
      · exact h
    obtain ⟨ihwf, ihheads, ihstrs, ihres, ihhitT, ihhitF⟩ :=
      delete_spec al ch (str.drop (cdiff sub str)) hch (zero_nmem_drop h0 _)
    have hhit2 : (delGo al ch (str.drop (cdiff sub str))).hit = true := hhit
    obtain ⟨hlen, hres0⟩ := ihhitT hhit2
    have hcr := ih hch hcch (zero_nmem_drop h0 _) hres0
    rw [delGo_eq_descend h1 h2] at hres ⊢
    rw [if_pos hhit2] at hres ⊢
    dsimp only at hres ⊢
    rcases hmt : (delGo al ch (str.drop (cdiff sub str))).tree with _ | ⟨⟨csub, cch⟩, ctl⟩
    · rw [hmt] at hlen
      simp at hlen
      omega
    · rcases ctl with _ | ⟨n2, rest2⟩
      · rw [hmt] at hcr ihwf hres
        obtain ⟨hccn, hcccch, _⟩ := canonB_cons_parts hcr
        obtain ⟨hcsok, hcterm, hccw, _, _⟩ := wfL_cons_parts ihwf
        rcases hp : popA (delGo al ch (str.drop (cdiff sub str))).al with ⟨b, al1⟩
        cases b
        · rw [show radix_trie_fuse (delGo al ch (str.drop (cdiff sub str))).al sub
              [Node.mk csub cch] = (-1, Node.mk sub [Node.mk csub cch], al1) by
            rw [radix_trie_fuse, hp]] at hres
          simp at hres
        · rw [show radix_trie_fuse (delGo al ch (str.drop (cdiff sub str))).al sub
              [Node.mk csub cch] = (0, Node.mk (sub ++ csub) cch, al1) by
            rw [radix_trie_fuse, hp]]
          apply canonB_cons_intro ?_ hcccch hcrest
          rw [(subOK_append hzsub hcsok).2]
          exact hccn
      · rw [hmt] at hcr
        rw [show radix_trie_fuse (delGo al ch (str.drop (cdiff sub str))).al sub
            (Node.mk csub cch :: n2 :: rest2) = (0, Node.mk sub (Node.mk csub cch :: n2 :: rest2),
              (delGo al ch (str.drop (cdiff sub str))).al) by rw [radix_trie_fuse]]
        apply canonB_cons_intro ?_ hcr hcrest
        right
        simp only [List.length_cons]
        omega
  | case6 al sub ch rest str h1 h2 r hhit ih =>
    intro hw hc h0 hres
    obtain ⟨hs, hterm, hch, hrest, hadj⟩ := wfL_cons_parts hw
    obtain ⟨hcn, hcch, hcrest⟩ := canonB_cons_parts hc
    have hdl : cdiff sub str = sub.length := by
      have := cdiff_le_sub sub str
      omega
    obtain ⟨htake, hzsub⟩ := cdiff_eq_len_imp hdl
    have hterm2 : isTermSub sub = false := not_term_of_nz (subOK_ne_nil hs) hzsub
    have hch2 : 2 ≤ ch.length := by
      rcases hcn with ht | h
      · rw [ht] at hterm2
        cases hterm2
      · exact h
    obtain ⟨ihwf, ihheads, ihstrs, ihres, ihhitT, ihhitF⟩ :=
      delete_spec al ch (str.drop (cdiff sub str)) hch (zero_nmem_drop h0 _)
    have hhit2 : (delGo al ch (str.drop (cdiff sub str))).hit = false :=
      Bool.eq_false_iff.mpr hhit
    have hlen := ihhitF hhit2
    rw [delGo_eq_descend h1 h2] at hres ⊢
    rw [if_neg (by rw [hhit2]; simp)] at hres ⊢
    dsimp only at hres ⊢
    apply canonB_cons_intro ?_ (ih hch hcch (zero_nmem_drop h0 _) hres) hcrest
    right
    omega

/-- Every nonempty well-formed canonical tree stores at least one string. -/
theorem strs_ex {ns : List Node} (hw : wfL ns = true) (hc : canonB ns = true)
    (hne : ns ≠ []) : ∃ m, m ∈ strs ns := by
  induction ns using strs.induct with
  | case1 => exact absurd rfl hne
  | case2 sub ch rest ihch ihrest =>
    obtain ⟨hs, hterm, hch, hrest, hadj⟩ := wfL_cons_parts hw
    obtain ⟨hcn, hcch, hcrest⟩ := canonB_cons_parts hc
    by_cases ht : isTermSub sub = true
    · refine ⟨sub.dropLast, ?_⟩
      rw [mem_strs_cons]
      exact Or.inl ⟨ht, rfl⟩
    · have hch2 : 2 ≤ ch.length := by
        rcases hcn with h | h
        · exact absurd h ht
        · exact h
      have hchne : ch ≠ [] := by
        intro he
        rw [he] at hch2
        simp at hch2
      obtain ⟨y, hy⟩ := ihch hch hcch hchne
      refine ⟨sub ++ y, ?_⟩
      rw [mem_strs_cons]
      exact Or.inr (Or.inl ⟨y, hy, rfl⟩)

/-! Branch equations of `radix_trie_match` and its correctness. -/

theorem match_eq_nil (pre : List Nat) : radix_trie_match [] pre = false := by
  rw [radix_trie_match]

theorem match_eq_skip {sub : List Nat} {ch rest : List Node} {pre : List Nat}
    (h1 : sub.headD 0 < pre.headD 0) :
    radix_trie_match (.mk sub ch :: rest) pre = radix_trie_match rest pre := by
  rw [radix_trie_match, if_pos h1]

theorem match_eq_stop {sub : List Nat} {ch rest : List Node} {pre : List Nat}
    (h1 : ¬sub.headD 0 < pre.headD 0) (h2 : cdiff sub pre < sub.length) :
    radix_trie_match (.mk sub ch :: rest) pre = decide (pre.getD (cdiff sub pre) 0 = 0) := by
  rw [radix_trie_match, if_neg h1, if_pos h2]

theorem match_eq_true {sub : List Nat} {ch rest : List Node} {pre : List Nat}
    (h1 : ¬sub.headD 0 < pre.headD 0) (h2 : ¬cdiff sub pre < sub.length)
    (h3 : (pre.drop (cdiff sub pre)).headD 0 = 0) :
    radix_trie_match (.mk sub ch :: rest) pre = true := by
  rw [radix_trie_match, if_neg h1, if_neg h2, if_pos h3]

theorem match_eq_descend {sub : List Nat} {ch rest : List Node} {pre : List Nat}
    (h1 : ¬sub.headD 0 < pre.headD 0) (h2 : ¬cdiff sub pre < sub.length)
    (h3 : ¬(pre.drop (cdiff sub pre)).headD 0 = 0) :
    radix_trie_match (.mk sub ch :: rest) pre =
      radix_trie_match ch (pre.drop (cdiff sub pre)) := by
  rw [radix_trie_match, if_neg h1, if_neg h2, if_neg h3]

theorem prefix_take_mem {sub : List Nat} {ch : List Node} {m : List Nat}
    (hm : m ∈ strs [Node.mk sub ch]) {d : Nat} (hd : d < sub.length) :
    ∃ t, m = sub.take d ++ t := by
  rw [mem_strs_cons] at hm
  rcases hm with ⟨ht, he⟩ | ⟨y, hy, he⟩ | hm
  · refine ⟨sub.dropLast.drop d, ?_⟩
    rw [he]
    conv_lhs => rw [← List.take_append_drop d sub.dropLast]
    congr 1
    rw [List.dropLast_eq_take, List.take_take]
    congr 1
    omega
  · refine ⟨sub.drop d ++ y, ?_⟩
    rw [he, ← List.append_assoc, List.take_append_drop]
  · rw [strs_nil] at hm
    cases hm

theorem cdiff_stop_ne {sub pre : List Nat} (h2 : cdiff sub pre < sub.length)
    (hp : pre.getD (cdiff sub pre) 0 ≠ 0) :
    sub.getD (cdiff sub pre) 0 ≠ pre.getD (cdiff sub pre) 0 := by
  intro he
  exact hp (cdiff_stop h2 he)

/-- Correctness of the prefix query on canonical well-formed trees: it
answers true exactly when some stored string extends the query. -/
theorem match_iff {ns : List Node} {pre : List Nat} (hw : wfL ns = true)
    (hc : canonB ns = true) (h0 : (0 : Nat) ∉ pre) :
    radix_trie_match ns pre = true ↔ ∃ m ∈ strs ns, ∃ t, m = pre ++ t := by
  induction ns, pre using radix_trie_match.induct with
  | case1 pre =>
    rw [match_eq_nil, strs_nil]
    simp
  | case2 sub ch rest pre h1 ih =>
    obtain ⟨hs, hterm, hch, hrest, hadj⟩ := wfL_cons_parts hw
    obtain ⟨hcn, hcch, hcrest⟩ := canonB_cons_parts hc
    have hpne : pre ≠ [] := by
      intro he
      rw [he] at h1
      simp at h1
    rw [match_eq_skip h1, ih hrest hcrest h0]
    constructor
    · rintro ⟨m, hm, t, ht⟩
      refine ⟨m, ?_, t, ht⟩
      rw [strs_cons_append (Node.mk sub ch) rest, List.mem_append]
      exact Or.inr hm
    · rintro ⟨m, hm, t, ht⟩
      rw [strs_cons_append (Node.mk sub ch) rest, List.mem_append] at hm
      rcases hm with hm | hm
      · exfalso
        rcases head_of_mem_single hs hm with ⟨hme, hsub⟩ | ⟨hne, hh⟩
        · rw [hme] at ht
          have : pre = [] := by
            cases pre
            · rfl
            · simp at ht
          exact hpne this
        · rw [ht, headD_append _ hpne] at hh
          omega
      · exact ⟨m, hm, t, ht⟩
  | case3 sub ch rest pre h1 h2 =>
    obtain ⟨hs, hterm, hch, hrest, hadj⟩ := wfL_cons_parts hw
    obtain ⟨hcn, hcch, hcrest⟩ := canonB_cons_parts hc
    rw [match_eq_stop h1 h2]
    simp only [decide_eq_true_eq]
    constructor
    · intro hz
      have hple : pre.length ≤ cdiff sub pre := by
        by_contra hcc
        push_neg at hcc
        exact (zero_nmem_getD_iff.mp h0) _ hcc hz
      have hpge := cdiff_le_str sub pre
      have hpeq : cdiff sub pre = pre.length := by omega
      have hpre : pre = sub.take (cdiff sub pre) := by
        have h5 := take_eq_of_getD (d := cdiff sub pre) (by omega) (by omega)
          (fun j hj => (cdiff_getD_lt sub pre j hj).1)
        have h6 : pre.take (cdiff sub pre) = pre := by
          rw [hpeq]
          exact List.take_length pre
        rw [h6] at h5
        exact h5.symm
      have hwn : wfL [Node.mk sub ch] = true :=
        wfL_cons_intro hs hterm hch wfL_nil (by intro _ _ _ hcx; cases hcx)
      have hcnn : canonB [Node.mk sub ch] = true :=
        canonB_cons_intro hcn hcch canonB_nil
      obtain ⟨m, hm⟩ := strs_ex hwn hcnn (by simp)
      obtain ⟨t, htm⟩ := prefix_take_mem hm h2
      refine ⟨m, ?_, t, htm.trans (by rw [← hpre])⟩
      rw [strs_cons_append (Node.mk sub ch) rest, List.mem_append]
      exact Or.inl hm
    · rintro ⟨m, hm, t, htm⟩
      by_cases hplen : pre.length ≤ cdiff sub pre
      · exact getD_oob (by omega)
      · push_neg at hplen
        exfalso
        rw [strs_cons_append (Node.mk sub ch) rest, List.mem_append] at hm
        rcases hm with hm | hm
        · have hmd : m.getD (cdiff sub pre) 0 = pre.getD (cdiff sub pre) 0 := by
            rw [htm, getD_append_left _ (by omega)]
          have hsne2 := cdiff_stop_ne h2 (by
            intro hz
            exact (zero_nmem_getD_iff.mp h0) _ hplen hz)
          rw [mem_strs_cons] at hm
          rcases hm with ⟨ht, he⟩ | ⟨y, hy, he⟩ | hm
          · by_cases hdd : cdiff sub pre + 1 < sub.length
            · apply hsne2
              rw [← hmd, he, getD_dropLast hdd]
            · have hmlen : m.length = sub.length - 1 := by
                rw [he, List.length_dropLast]
              have hlen2 : pre.length ≤ m.length := by
                rw [htm]
                simp
              omega
          · apply hsne2
            rw [← hmd, he, getD_append_left _ (by omega)]
          · rw [strs_nil] at hm
            cases hm
        · have := strs_head_lb hrest (wfL_rest_lt hw) hm
          have hpne : pre ≠ [] := by
            intro he
            rw [he] at hplen
            simp at hplen
          rw [htm, headD_append _ hpne] at this
          omega
  | case4 sub ch rest pre h1 h2 h3 =>
    obtain ⟨hs, hterm, hch, hrest, hadj⟩ := wfL_cons_parts hw
    obtain ⟨hcn, hcch, hcrest⟩ := canonB_cons_parts hc
    have hdl : cdiff sub pre = sub.length := by
      have := cdiff_le_sub sub pre
      omega
    obtain ⟨htake, hzsub⟩ := cdiff_eq_len_imp hdl
    have hterm2 : isTermSub sub = false := not_term_of_nz (subOK_ne_nil hs) hzsub
    rw [match_eq_true h1 h2 h3]
    rw [headD_drop] at h3
    have hple : pre.length ≤ cdiff sub pre := by
      by_contra hcc
      push_neg at hcc
      exact (zero_nmem_getD_iff.mp h0) _ hcc h3
    have hpge := cdiff_le_str sub pre
    have hpeq : pre = sub := by
      rw [← htake, ← hdl]
      have : cdiff sub pre = pre.length := by omega
      rw [this, List.take_length]
    have hch2 : 2 ≤ ch.length := by
      rcases hcn with ht | h
      · rw [ht] at hterm2
        cases hterm2
      · exact h
    have hchne : ch ≠ [] := by
      intro he
      rw [he] at hch2
      simp at hch2
    obtain ⟨y, hy⟩ := strs_ex hch hcch hchne
    simp only [true_iff]
    refine ⟨sub ++ y, ?_, y, by rw [hpeq]⟩
    rw [mem_strs_cons]
    exact Or.inr (Or.inl ⟨y, hy, rfl⟩)
  | case5 sub ch rest pre h1 h2 h3 ih =>
    obtain ⟨hs, hterm, hch, hrest, hadj⟩ := wfL_cons_parts hw
    obtain ⟨hcn, hcch, hcrest⟩ := canonB_cons_parts hc
    have hdl : cdiff sub pre = sub.length := by
      have := cdiff_le_sub sub pre
      omega
    obtain ⟨htake, hzsub⟩ := cdiff_eq_len_imp hdl
    have hterm2 : isTermSub sub = false := not_term_of_nz (subOK_ne_nil hs) hzsub
    have key : sub ++ pre.drop sub.length = pre := by
      conv_rhs => rw [← List.take_append_drop sub.length pre]
      rw [htake]
    have hpne : pre ≠ [] := by
      intro he
      subst he
      rw [cdiff_nil_str] at hdl
      have := subOK_ne_nil hs
      cases sub
      · exact absurd rfl this
      · simp at hdl
    rw [hdl] at ih h3
    rw [match_eq_descend h1 h2 (by rw [hdl]; exact h3), hdl]
    rw [ih hch hcch (zero_nmem_drop h0 _)]
    constructor
    · rintro ⟨y, hy, t, ht⟩
      refine ⟨sub ++ y, ?_, t, ?_⟩
      · rw [mem_strs_cons]
        exact Or.inr (Or.inl ⟨y, hy, rfl⟩)
      · rw [ht, ← List.append_assoc, key]
    · rintro ⟨m, hm, t, ht⟩
      rw [mem_strs_cons] at hm
      rcases hm with ⟨htt, he⟩ | ⟨y, hy, he⟩ | hm
      · rw [htt] at hterm2
        cases hterm2
      · refine ⟨y, hy, t, ?_⟩
        have : sub ++ y = sub ++ (pre.drop sub.length ++ t) := by
          rw [← he, ht, ← List.append_assoc, key]
        exact List.append_cancel_left this
      · exfalso
        have := strs_head_lb hrest (wfL_rest_lt hw) hm
        rw [ht, headD_append _ hpne] at this
        omega

/-! The visitor fold that `radix_trie_foreach` implements, and buffer
arithmetic. -/

/-- Folding a visitor over a list of strings with early exit: the result
state and whether the visitor requested a stop. -/
def runVisits {σ : Type} (g : List Nat → σ → Bool × σ) : List (List Nat) → σ → σ × Bool
  | [], s => (s, false)
  | x :: xs, s =>
    let r := g x s
    if r.1 then (r.2, true) else runVisits g xs r.2

theorem runVisits_append {σ : Type} (g : List Nat → σ → Bool × σ) (as bs : List (List Nat))
    (s : σ) :
    runVisits g (as ++ bs) s =
      if (runVisits g as s).2 then runVisits g as s
      else runVisits g bs (runVisits g as s).1 := by
  induction as generalizing s with
  | nil => simp [runVisits]
  | cons x xs ih =>
    simp only [List.cons_append, runVisits]
    by_cases hx : (g x s).1
    · simp [hx]
    · simp only [hx, if_false]
      exact ih (g x s).2

theorem writeAt_nil (buf : List Nat) (i : Nat) : writeAt buf i [] = buf := by
  simp [writeAt]

theorem writeAt_length {buf src : List Nat} {i : Nat} (h : i + src.length ≤ buf.length) :
    (writeAt buf i src).length = buf.length := by
  simp only [writeAt, List.length_append, List.length_take, List.length_drop]
  omega

theorem writeAt_getD_left {buf src : List Nat} {i j : Nat} (hj : j < i)
    (h : i ≤ buf.length) : (writeAt buf i src).getD j 0 = buf.getD j 0 := by
  rw [writeAt, List.append_assoc]
  rw [getD_append_left _ (by rw [List.length_take]; omega)]
  rw [getD_take (by omega)]

theorem writeAt_getD_mid {buf src : List Nat} {i j : Nat} (hj1 : i ≤ j)
    (hj2 : j < i + src.length) (h : i ≤ buf.length) :
    (writeAt buf i src).getD j 0 = src.getD (j - i) 0 := by
  rw [writeAt, List.append_assoc]
  rw [getD_append_right _ (by rw [List.length_take]; omega)]
  rw [List.length_take]
  rw [getD_append_left _ (by omega)]
  congr 1
  omega

theorem set_length (l : List Nat) (k v : Nat) : (l.set k v).length = l.length :=
  List.length_set l k v

theorem set_getD_ne {l : List Nat} {k j v : Nat} (h : j ≠ k) :
    (l.set k v).getD j 0 = l.getD j 0 := by
  induction l generalizing k j with
  | nil => simp
  | cons a t ih =>
    cases k with
    | zero =>
      cases j with
      | zero => omega
      | succ j => simp
    | succ k =>
      cases j with
      | zero => simp
      | succ j =>
        simp only [List.set_cons_succ, List.getD_cons_succ]
        exact ih (by omega)

theorem set_getD_eq {l : List Nat} {k v : Nat} (h : k < l.length) :
    (l.set k v).getD k 0 = v := by
  induction l generalizing k with
  | nil => simp at h
  | cons a t ih =>
    cases k with
    | zero => simp
    | succ k =>
      simp only [List.set_cons_succ, List.getD_cons_succ]
      exact ih (by simpa using h)

theorem cstr_eq_take {buf : List Nat} {k : Nat} (hk : k ≤ buf.length)
    (h1 : ∀ j, j < k → buf.getD j 0 ≠ 0) (h2 : buf.getD k 0 = 0) :
    cstr buf = buf.take k := by
  induction buf generalizing k with
  | nil => simp [cstr]
  | cons b t ih =>
    cases k with
    | zero =>
      simp only [List.getD_cons_zero] at h2
      simp [cstr, h2]
    | succ k =>
      have hb : b ≠ 0 := by
        have := h1 0 (by omega)
        simpa using this
      simp only [cstr, List.takeWhile_cons, List.take_succ_cons]
      rw [if_pos (by simpa using hb)]
      congr 1
      apply ih (by simpa using hk)
      · intro j hj
        have := h1 (j + 1) (by omega)
        simpa using this
      · simpa using h2

theorem take_min_length (M : List Nat) (n : Nat) :
    M.take (min M.length n) = M.take n := by
  rcases Nat.le_total M.length n with h | h
  · rw [Nat.min_eq_left h, List.take_length, List.take_of_length_le h]
  · rw [Nat.min_eq_right h]

theorem minzu_le_left (x y : Nat) : minzu x y ≤ x := by
  rw [minzu]
  split <;> omega

theorem minzu_le_right (x y : Nat) : minzu x y ≤ y := by
  rw [minzu]
  split <;> omega

theorem lt_minzu {x y j : Nat} (h1 : j < x) (h2 : j < y) : j < minzu x y := by
  rw [minzu]
  split <;> omega

/-- Effect of the write-then-terminate step at a terminal node: the buffer
reads back as the stored string clipped to the buffer (nul forced at the
last cell), the length is unchanged, and the already-written prefix below
the last cell is untouched. -/
theorem term_write_spec {L : Nat} {buf pre sub : List Nat}
    (hs : subOKb sub = true) (ht : isTermSub sub = true)
    (h0p : (0 : Nat) ∉ pre) (hlen : buf.length = L)
    (hinv : ∀ j, j < min pre.length (L - 1) → buf.getD j 0 = pre.getD j 0) (hL : 1 ≤ L) :
    cstr ((writeAt buf pre.length
        (sub.take (minzu (if L > pre.length then L - pre.length else 0) sub.length))).set
          (L - 1) 0) = (pre ++ sub.dropLast).take (L - 1) ∧
    ((writeAt buf pre.length
        (sub.take (minzu (if L > pre.length then L - pre.length else 0) sub.length))).set
          (L - 1) 0).length = L ∧
    (∀ j, j < min pre.length (L - 1) →
      ((writeAt buf pre.length
          (sub.take (minzu (if L > pre.length then L - pre.length else 0) sub.length))).set
            (L - 1) 0).getD j 0 = pre.getD j 0) := by
  have hsublen : 1 ≤ sub.length := by
    have := subOK_ne_nil hs
    cases sub
    · exact absurd rfl this
    · simp
  obtain ⟨hdecomp, h0d⟩ := term_decomp hs ht
  have hM0 : (0 : Nat) ∉ pre ++ sub.dropLast := by
    intro hm
    rcases List.mem_append.mp hm with hm | hm
    · exact h0p hm
    · exact h0d hm
  have hMlen : (pre ++ sub.dropLast).length = pre.length + (sub.length - 1) := by
    rw [List.length_append, List.length_dropLast]
  by_cases hiL : pre.length < L
  · rw [if_pos hiL]
    have hw1 : minzu (L - pre.length) sub.length ≤ L - pre.length := minzu_le_left _ _
    have hw2 : minzu (L - pre.length) sub.length ≤ sub.length := minzu_le_right _ _
    have htlen : (sub.take (minzu (L - pre.length) sub.length)).length
        = minzu (L - pre.length) sub.length := by
      rw [List.length_take]
      omega
    have hble : pre.length + (sub.take (minzu (L - pre.length) sub.length)).length
        ≤ buf.length := by
      rw [htlen, hlen]
      omega
    have hb1len : (writeAt buf pre.length
        (sub.take (minzu (L - pre.length) sub.length))).length = L := by
      rw [writeAt_length hble, hlen]
    have hb2len : ((writeAt buf pre.length
        (sub.take (minzu (L - pre.length) sub.length))).set (L - 1) 0).length = L := by
      rw [set_length, hb1len]
    have hgetlt : ∀ j, j < min (pre.length + (sub.length - 1)) (L - 1) →
        ((writeAt buf pre.length
          (sub.take (minzu (L - pre.length) sub.length))).set (L - 1) 0).getD j 0
          = (pre ++ sub.dropLast).getD j 0 := by
      intro j hj
      rw [set_getD_ne (by omega)]
      by_cases hji : j < pre.length
      · rw [writeAt_getD_left hji (by omega)]
        rw [hinv j (by omega)]
        rw [getD_append_left _ hji]
      · push_neg at hji
        have hjw : j - pre.length < minzu (L - pre.length) sub.length := by
          apply lt_minzu <;> omega
        rw [writeAt_getD_mid hji (by rw [htlen]; omega) (by omega)]
        rw [getD_take hjw]
        rw [getD_append_right _ hji]
        rw [getD_dropLast (by omega)]
    have hgetk : ((writeAt buf pre.length
        (sub.take (minzu (L - pre.length) sub.length))).set (L - 1) 0).getD
          (min (pre.length + (sub.length - 1)) (L - 1)) 0 = 0 := by
      by_cases hk : L - 1 ≤ pre.length + (sub.length - 1)
      · rw [Nat.min_eq_right hk]
        exact set_getD_eq (by omega)
      · push_neg at hk
        rw [Nat.min_eq_left (by omega)]
        rw [set_getD_ne (by omega)]
        have hlt1 : sub.length - 1 < minzu (L - pre.length) sub.length := by
          apply lt_minzu <;> omega
        have hlt2 : pre.length + (sub.length - 1)
            < pre.length + (sub.take (minzu (L - pre.length) sub.length)).length := by
          rw [htlen]
          omega
        have he : pre.length + (sub.length - 1) - pre.length = sub.length - 1 := by omega
        rw [writeAt_getD_mid (by omega) hlt2 (by omega), he, getD_take hlt1]
        exact isTermSub_eq.mp ht
    refine ⟨?_, hb2len, ?_⟩
    · rw [cstr_eq_take (k := min (pre.length + (sub.length - 1)) (L - 1)) (by omega)
        ?_ hgetk]
      · rw [@take_eq_of_getD _ (pre ++ sub.dropLast) _ (by omega) (by omega)
          (fun j hj => hgetlt j hj)]
        rw [← hMlen, take_min_length]
      · intro j hj
        rw [hgetlt j hj]
        exact fun hz => hM0 (by
          rw [← hz]
          rw [List.getD_eq_getElem _ 0 (by omega)]
          exact List.getElem_mem _)
    · intro j hj
      rw [set_getD_ne (by omega), writeAt_getD_left (by omega) (by omega)]
      exact hinv j hj
  · push_neg at hiL
    rw [if_neg (by omega)]
    have hwz : minzu 0 sub.length = 0 := by
      rw [minzu]
      split <;> omega
    rw [hwz]
    simp only [List.take_zero, writeAt_nil]
    have hb2len : ((buf.set (L - 1) 0)).length = L := by
      rw [set_length, hlen]
    have hgetlt : ∀ j, j < L - 1 →
        (buf.set (L - 1) 0).getD j 0 = (pre ++ sub.dropLast).getD j 0 := by
      intro j hj
      rw [set_getD_ne (by omega)]
      rw [hinv j (by omega)]
      rw [getD_append_left _ (by omega)]
    refine ⟨?_, hb2len, ?_⟩
    · rw [cstr_eq_take (k := L - 1) (by omega) ?_ (set_getD_eq (by omega))]
      · rw [@take_eq_of_getD _ (pre ++ sub.dropLast) _ (by omega) (by omega)
          (fun j hj => hgetlt j hj)]
      · intro j hj
        rw [hgetlt j hj]
        exact fun hz => hM0 (by
          rw [← hz]
          rw [List.getD_eq_getElem _ 0 (by omega)]
          exact List.getElem_mem _)
    · intro j hj
      rw [set_getD_ne (by omega)]
      exact hinv j hj

/-- Effect of the write step at a non-terminal node: the buffer keeps its
length and now carries the extended path prefix below the last cell. -/
theorem nonterm_write_spec {L : Nat} {buf pre sub : List Nat}
    (hs : subOKb sub = true) (hlen : buf.length = L)
    (hinv : ∀ j, j < min pre.length (L - 1) → buf.getD j 0 = pre.getD j 0) (hL : 1 ≤ L) :
    (writeAt buf pre.length
      (sub.take (minzu (if L > pre.length then L - pre.length else 0) sub.length))).length
        = L ∧
    (∀ j, j < min (pre ++ sub).length (L - 1) →
      (writeAt buf pre.length
        (sub.take (minzu (if L > pre.length then L - pre.length else 0) sub.length))).getD
          j 0 = (pre ++ sub).getD j 0) := by
  have hplen : (pre ++ sub).length = pre.length + sub.length := List.length_append pre sub
  by_cases hiL : pre.length < L
  · rw [if_pos hiL]
    have hw1 : minzu (L - pre.length) sub.length ≤ L - pre.length := minzu_le_left _ _
    have hw2 : minzu (L - pre.length) sub.length ≤ sub.length := minzu_le_right _ _
    have htlen : (sub.take (minzu (L - pre.length) sub.length)).length
        = minzu (L - pre.length) sub.length := by
      rw [List.length_take]
      omega
    have hble : pre.length + (sub.take (minzu (L - pre.length) sub.length)).length
        ≤ buf.length := by
      rw [htlen, hlen]
      omega
    refine ⟨by rw [writeAt_length hble, hlen], ?_⟩
    intro j hj
    rw [hplen] at hj
    by_cases hji : j < pre.length
    · rw [writeAt_getD_left hji (by omega)]
      rw [hinv j (by omega)]
      rw [getD_append_left _ hji]
    · push_neg at hji
      have hjw : j - pre.length < minzu (L - pre.length) sub.length := by
        apply lt_minzu <;> omega
      rw [writeAt_getD_mid hji (by rw [htlen]; omega) (by omega)]
      rw [getD_take hjw]
      rw [getD_append_right _ hji]
  · push_neg at hiL
    rw [if_neg (by omega)]
    have hwz : minzu 0 sub.length = 0 := by
      rw [minzu]
      split <;> omega
    rw [hwz]
    simp only [List.take_zero, writeAt_nil]
    refine ⟨hlen, ?_⟩
    intro j hj
    rw [hinv j (by omega)]
    rw [getD_append_left _ (by omega)]

theorem iterate_eq_nil {σ : Type} (fn : List Nat → σ → Bool × σ) (L : Nat)
    (buf : List Nat) (s : σ) (i : Nat) :
    radix_trie_iterate fn L [] buf s i = (buf, s, false) := by
  rw [radix_trie_iterate]

theorem iterate_eq_cons_term {σ : Type} {fn : List Nat → σ → Bool × σ} {L : Nat}
    {sub : List Nat} {ch rest : List Node} {buf : List Nat} {s : σ} {i : Nat}
    (ht : isTermSub sub = true) :
    radix_trie_iterate fn L (.mk sub ch :: rest) buf s i =
      (let buf2 := (writeAt buf i
          (sub.take (minzu (if L > i then L - i else 0) sub.length))).set (L - 1) 0
       let r := fn buf2 s
       if r.1 then (buf2, r.2, r.1)
       else
         let c := radix_trie_iterate fn L ch buf2 r.2 (i + sub.length)
         if c.2.2 then c
         else radix_trie_iterate fn L rest c.1 c.2.1 i) := by
  rw [radix_trie_iterate]
  simp only [ht, if_true]

theorem iterate_eq_cons_nonterm {σ : Type} {fn : List Nat → σ → Bool × σ} {L : Nat}
    {sub : List Nat} {ch rest : List Node} {buf : List Nat} {s : σ} {i : Nat}
    (ht : isTermSub sub = false) :
    radix_trie_iterate fn L (.mk sub ch :: rest) buf s i =
      (let buf1 := writeAt buf i (sub.take (minzu (if L > i then L - i else 0) sub.length))
       let c := radix_trie_iterate fn L ch buf1 s (i + sub.length)
       if c.2.2 then c
       else radix_trie_iterate fn L rest c.1 c.2.1 i) := by
  rw [radix_trie_iterate]
  simp only [ht, if_false, Bool.false_eq_true]

/-- Master correctness of `radix_trie_iterate`: run on a sibling list with a
buffer that holds the accumulated path `pre`, the visitor sees exactly the
stored strings (extended by the path and clipped to the buffer) in order,
with early exit honoured, and the buffer keeps its length and its prefix
below the last cell. -/
theorem iterate_spec {σ : Type} (g : List Nat → σ → Bool × σ) (L : Nat) (hL : 1 ≤ L)
    (ns : List Node) :
    ∀ (buf : List Nat) (s : σ) (pre : List Nat),
      wfL ns = true → (0 : Nat) ∉ pre → buf.length = L →
      (∀ j, j < min pre.length (L - 1) → buf.getD j 0 = pre.getD j 0) →
      ((radix_trie_iterate (fun b s2 => g (cstr b) s2) L ns buf s pre.length).2.1,
          (radix_trie_iterate (fun b s2 => g (cstr b) s2) L ns buf s pre.length).2.2)
        = runVisits g ((strs ns).map (fun x => (pre ++ x).take (L - 1))) s ∧
      (radix_trie_iterate (fun b s2 => g (cstr b) s2) L ns buf s pre.length).1.length
        = L ∧
      (∀ j, j < min pre.length (L - 1) →
        (radix_trie_iterate (fun b s2 => g (cstr b) s2) L ns buf s pre.length).1.getD j 0
          = pre.getD j 0) := by
  induction ns using strs.induct with
  | case1 =>
    intro buf s pre _ _ hlen hinv
    rw [iterate_eq_nil, strs_nil]
    exact ⟨rfl, hlen, hinv⟩
  | case2 sub ch rest ihch ihrest =>
    intro buf s pre hw h0p hlen hinv
    obtain ⟨hs, hterm, hch, hrest, _⟩ := wfL_cons_parts hw
    cases hts : isTermSub sub with
    | true =>
      have hche := hterm hts
      subst hche
      obtain ⟨hcstr, hblen, hbinv⟩ := term_write_spec hs hts h0p hlen hinv hL
      rcases hg : g ((pre ++ sub.dropLast).take (L - 1)) s with ⟨stop, s1⟩
      have hms : (strs (Node.mk sub [] :: rest)).map (fun x => (pre ++ x).take (L - 1))
          = ((pre ++ sub.dropLast).take (L - 1)) ::
              (strs rest).map (fun x => (pre ++ x).take (L - 1)) := by
        rw [strs_cons, hts, strs_nil]
        simp
      cases stop with
      | true =>
        have hstep : radix_trie_iterate (fun b s2 => g (cstr b) s2) L
            (Node.mk sub [] :: rest) buf s pre.length
            = ((writeAt buf pre.length
                (sub.take (minzu (if L > pre.length then L - pre.length else 0)
                  sub.length))).set (L - 1) 0, s1, true) := by
          rw [iterate_eq_cons_term hts]
          dsimp only
          rw [hcstr, hg]
          dsimp only
          rw [if_pos rfl]
        rw [hstep, hms]
        refine ⟨?_, hblen, hbinv⟩
        show ((s1, true) : σ × Bool) = _
        rw [runVisits, hg]
        dsimp only
        rw [if_pos rfl]
      | false =>
        have hstep : radix_trie_iterate (fun b s2 => g (cstr b) s2) L
            (Node.mk sub [] :: rest) buf s pre.length
            = radix_trie_iterate (fun b s2 => g (cstr b) s2) L rest
                ((writeAt buf pre.length
                  (sub.take (minzu (if L > pre.length then L - pre.length else 0)
                    sub.length))).set (L - 1) 0) s1 pre.length := by
          rw [iterate_eq_cons_term hts]
          dsimp only
          rw [hcstr, hg]
          dsimp only
          rw [if_neg (by simp), iterate_eq_nil]
          dsimp only
          rw [if_neg (by simp)]
        obtain ⟨ih1, ih2, ih3⟩ := ihrest ((writeAt buf pre.length
            (sub.take (minzu (if L > pre.length then L - pre.length else 0)
              sub.length))).set (L - 1) 0) s1 pre hrest h0p hblen hbinv
        rw [hstep, hms]
        refine ⟨?_, ih2, ih3⟩
        rw [ih1, runVisits, hg]
        dsimp only
        rw [if_neg (by simp)]
    | false =>
      obtain ⟨hb1len, hb1inv⟩ := nonterm_write_spec hs hlen hinv hL
      have h0ps : (0 : Nat) ∉ pre ++ sub := by
        intro hm
        rcases List.mem_append.mp hm with hm | hm
        · exact h0p hm
        · exact nonterm_nz hs hts hm
      have hplen : (pre ++ sub).length = pre.length + sub.length :=
        List.length_append pre sub
      obtain ⟨ihc1, ihc2, ihc3⟩ := ihch _ s (pre ++ sub) hch h0ps hb1len hb1inv
      rw [hplen] at ihc1 ihc2 ihc3
      have hcinv : ∀ j, j < min pre.length (L - 1) →
          (radix_trie_iterate (fun b s2 => g (cstr b) s2) L ch
            (writeAt buf pre.length
              (sub.take (minzu (if L > pre.length then L - pre.length else 0)
                sub.length))) s (pre.length + sub.length)).1.getD j 0
            = pre.getD j 0 := by
        intro j hj
        rcases Nat.lt_min.mp hj with ⟨hj1, hj2⟩
        rw [ihc3 j (Nat.lt_min.mpr ⟨by omega, hj2⟩)]
        exact getD_append_left sub hj1
      have hms : (strs (Node.mk sub ch :: rest)).map (fun x => (pre ++ x).take (L - 1))
          = (strs ch).map (fun y => ((pre ++ sub) ++ y).take (L - 1))
            ++ (strs rest).map (fun x => (pre ++ x).take (L - 1)) := by
        rw [strs_cons, hts]
        simp only [Bool.false_eq_true, if_false, List.nil_append, List.map_append,
          List.map_map]
        congr 1
        apply List.map_congr_left
        intro y _
        simp [Function.comp, List.append_assoc]
      rw [iterate_eq_cons_nonterm hts]
      dsimp only
      cases hc : (radix_trie_iterate (fun b s2 => g (cstr b) s2) L ch
          (writeAt buf pre.length
            (sub.take (minzu (if L > pre.length then L - pre.length else 0)
              sub.length))) s (pre.length + sub.length)).2.2 with
      | true =>
        rw [hc] at ihc1
        rw [if_pos rfl]
        refine ⟨?_, ihc2, hcinv⟩
        rw [hms, runVisits_append, ← ihc1]
        dsimp only
        rw [if_pos rfl, hc]
      | false =>
        rw [hc] at ihc1
        rw [if_neg (by simp)]
        obtain ⟨ihr1, ihr2, ihr3⟩ := ihrest
          ((radix_trie_iterate (fun b s2 => g (cstr b) s2) L ch
            (writeAt buf pre.length
              (sub.take (minzu (if L > pre.length then L - pre.length else 0)
                sub.length))) s (pre.length + sub.length)).1)
          ((radix_trie_iterate (fun b s2 => g (cstr b) s2) L ch
            (writeAt buf pre.length
              (sub.take (minzu (if L > pre.length then L - pre.length else 0)
                sub.length))) s (pre.length + sub.length)).2.1)
          pre hrest h0p ihc2 hcinv
        refine ⟨?_, ihr2, ihr3⟩
        rw [hms, runVisits_append, ← ihc1]
        dsimp only
        rw [if_neg Bool.false_ne_true]
        exact ihr1

/-- `radix_trie_foreach` through the visitor's eyes: the early-stop code and
the final visitor state are those of folding the visitor over the stored
strings, each extended into the buffer and clipped to its last cell, and
the buffer keeps its length. -/
theorem foreach_spec {σ : Type} (g : List Nat → σ → Bool × σ) (t : List Node)
    (buf : List Nat) (s : σ) (hw : wfL t = true) (hL : 1 ≤ buf.length) :
    (radix_trie_foreach (fun b s2 => g (cstr b) s2) t buf s).2.2
        = (runVisits g ((strs t).map (fun x => x.take (buf.length - 1))) s).1 ∧
    (radix_trie_foreach (fun b s2 => g (cstr b) s2) t buf s).1
        = (if (runVisits g ((strs t).map (fun x => x.take (buf.length - 1))) s).2 then 1
           else 0) ∧
    (radix_trie_foreach (fun b s2 => g (cstr b) s2) t buf s).2.1.length = buf.length := by
  obtain ⟨hpair, hblen, _⟩ := iterate_spec g buf.length hL t buf s [] hw (by simp)
    rfl (by intro j hj; simp at hj)
  simp only [List.nil_append, List.length_nil] at hpair hblen
  have h1 := congrArg Prod.fst hpair
  have h2 := congrArg Prod.snd hpair
  dsimp only at h1 h2
  rw [radix_trie_foreach]
  rw [if_neg (by omega)]
  dsimp only
  exact ⟨h1, by rw [h2], hblen⟩

/-- With the empty allocation oracle every allocation succeeds: insertion
reports no error and passes the empty oracle on. -/
theorem insert_nofail (al : List Bool) (ns : List Node) (str : List Nat) :
    al = [] → (radix_trie_insert al ns str).err = false ∧
      (radix_trie_insert al ns str).al = [] := by
  induction al, ns, str using radix_trie_insert.induct with
  | case1 al str =>
    intro hal
    subst hal
    rw [insert_eq_nil]
    exact ⟨rfl, rfl⟩
  | case2 al sub ch rest str h1 ih =>
    intro hal
    rw [insert_eq_skip h1]
    exact ih hal
  | case3 al sub ch rest str h1 h2 =>
    intro hal
    subst hal
    rw [insert_eq_before h1 h2]
    exact ⟨rfl, rfl⟩
  | case4 al sub ch rest str h1 h2 h3 h4 =>
    intro hal
    rw [insert_eq_member h1 h2 h3 h4]
    exact ⟨rfl, hal⟩
  | case5 al sub ch rest str h1 h2 h3 h4 al1 hpop =>
    intro hal
    subst hal
    rw [show popA [] = ((true, []) : Bool × List Bool) from rfl] at hpop
    simp at hpop
  | case6 al sub ch rest str h1 h2 h3 h4 al1 hpop p ih =>
    intro hal
    subst hal
    have hal1 : al1 = [] := by
      rw [show popA [] = ((true, []) : Bool × List Bool) from rfl] at hpop
      exact (Prod.mk.injEq _ _ _ _ ▸ hpop).2.symm ▸ rfl
    rw [insert_eq_splitgo h1 h2 h3 h4 hpop]
    have hpdef : p = radix_trie_split sub ch (cdiff sub str) := rfl
    rw [hpdef, radix_trie_split] at ih
    simp only [Node.children] at ih
    exact ih hal1
  | case7 al sub ch rest str h1 h2 h3 ih =>
    intro hal
    rw [insert_eq_descend h1 h2 h3]
    exact ih hal

/-- With the empty oracle a fuse always succeeds. -/
theorem fuse_nofail (sub : List Nat) (ch : List Node) :
    (radix_trie_fuse [] sub ch).1 = 0 ∧ (radix_trie_fuse [] sub ch).2.2 = [] := by
  rcases ch with _ | ⟨⟨csub, cch⟩, _ | ⟨n2, tl⟩⟩ <;> simp [radix_trie_fuse, popA]

/-- The fuse result code is 0 or -1, whatever the oracle. -/
theorem fuse_res_mem (al : List Bool) (sub : List Nat) (ch : List Node) :
    (radix_trie_fuse al sub ch).1 = 0 ∨ (radix_trie_fuse al sub ch).1 = -1 := by
  rcases ch with _ | ⟨⟨csub, cch⟩, _ | ⟨n2, tl⟩⟩
  · left; rfl
  · rcases hp : popA al with ⟨b, al1⟩
    cases b <;> simp [radix_trie_fuse, hp]
  · left; rfl

/-- With the empty oracle deletion never reports a fuse failure. -/
theorem delGo_nofail (al : List Bool) (ns : List Node) (str : List Nat) :
    al = [] → (delGo al ns str).res = 0 ∧ (delGo al ns str).al = [] := by
  induction al, ns, str using delGo.induct with
  | case1 al str =>
    intro hal
    rw [delGo_eq_nil]
    exact ⟨rfl, hal⟩
  | case2 al sub ch rest str h1 ih =>
    intro hal
    rw [delGo_eq_skip h1]
    exact ih hal
  | case3 al sub ch rest str h1 h2 h3 =>
    intro hal
    rw [delGo_eq_match h1 h2 h3]
    exact ⟨rfl, hal⟩
  | case4 al sub ch rest str h1 h2 h3 =>
    intro hal
    rw [delGo_eq_nomatch h1 h2 h3]
    exact ⟨rfl, hal⟩
  | case5 al sub ch rest str h1 h2 r hhit ih =>
    intro hal
    have hhit2 : (delGo al ch (str.drop (cdiff sub str))).hit = true := hhit
    obtain ⟨_, ihal⟩ := ih hal
    rw [delGo_eq_descend h1 h2, if_pos hhit2]
    dsimp only
    rw [ihal]
    exact fuse_nofail sub _
  | case6 al sub ch rest str h1 h2 r hhit ih =>
    intro hal
    have hhit2 : (delGo al ch (str.drop (cdiff sub str))).hit = false :=
      Bool.eq_false_iff.mpr hhit
    rw [delGo_eq_descend h1 h2, if_neg (by rw [hhit2]; simp)]
    exact ih hal

/-- The deletion result code is 0 or -1 for every oracle, tree and string:
the code has no path that returns the positive NotFound value the header
documents. -/
theorem delGo_res_mem (al : List Bool) (ns : List Node) (str : List Nat) :
    (delGo al ns str).res = 0 ∨ (delGo al ns str).res = -1 := by
  induction al, ns, str using delGo.induct with
  | case1 al str =>
    rw [delGo_eq_nil]
    left; rfl
  | case2 al sub ch rest str h1 ih =>
    rw [delGo_eq_skip h1]
    exact ih
  | case3 al sub ch rest str h1 h2 h3 =>
    rw [delGo_eq_match h1 h2 h3]
    left; rfl
  | case4 al sub ch rest str h1 h2 h3 =>
    rw [delGo_eq_nomatch h1 h2 h3]
    left; rfl
  | case5 al sub ch rest str h1 h2 r hhit ih =>
    have hhit2 : (delGo al ch (str.drop (cdiff sub str))).hit = true := hhit
    rw [delGo_eq_descend h1 h2, if_pos hhit2]
    exact fuse_res_mem _ sub _
  | case6 al sub ch rest str h1 h2 r hhit ih =>
    have hhit2 : (delGo al ch (str.drop (cdiff sub str))).hit = false :=
      Bool.eq_false_iff.mpr hhit
    rw [delGo_eq_descend h1 h2, if_neg (by rw [hhit2]; simp)]
    exact ih

/-- Every reachable tree (arbitrary allocation outcomes) is well formed. -/
theorem reachable_wf {t : List Node} (h : Reachable t) : wfL t = true := by
  induction h with
  | empty => exact wfL_nil
  | ins al str ht h0 ih => exact (insert_spec al _ str ih h0).1
  | del al str ht h0 ih => exact (delete_spec al _ str ih h0).1

/-- Every tree reachable with all allocations succeeding is well formed and
canonical. -/
theorem reachableOk_wf_canon {t : List Node} (h : ReachableOk t) :
    wfL t = true ∧ canonB t = true := by
  induction h with
  | empty => exact ⟨wfL_nil, canonB_nil⟩
  | ins str ht h0 ih =>
    exact ⟨(insert_spec [] _ str ih.1 h0).1,
      insert_canon [] _ str ih.1 ih.2 h0 (insert_nofail [] _ str rfl).1⟩
  | del str ht h0 ih =>
    exact ⟨(delete_spec [] _ str ih.1 h0).1,
      delete_canon [] _ str ih.1 ih.2 h0 (delGo_nofail [] _ str rfl).1⟩

/-- The strengthened canonical form implies the claimed one. -/
theorem noLone_of_canon (ns : List Node) : canonB ns = true → noLoneChild ns = true := by
  induction ns using canonB.induct with
  | case1 =>
    intro _
    rw [noLoneChild]
  | case2 sub ch rest ih1 ih2 =>
    intro h
    rw [canonB] at h
    rw [noLoneChild]
    simp only [Bool.and_eq_true, Bool.or_eq_true, decide_eq_true_eq] at h ⊢
    obtain ⟨⟨hc1, hc2⟩, hc3⟩ := h
    refine ⟨⟨?_, ih1 hc2⟩, ih2 hc3⟩
    rcases hc1 with hterm | hlen
    · exact Or.inl hterm
    · right; omega

/-- The terminal-implies-leaf property on its own: every node whose
substring carries the terminator has no children. -/
def termLeafb : List Node → Bool
  | [] => true
  | .mk sub ch :: rest =>
    (!isTermSub sub || ch.isEmpty) && termLeafb ch && termLeafb rest
termination_by ns => sizeOf ns
decreasing_by
  all_goals first | (simp; omega) | simp | omega

theorem termLeaf_of_wf (ns : List Node) : wfL ns = true → termLeafb ns = true := by
  induction ns using termLeafb.induct with
  | case1 =>
    intro _
    rw [termLeafb]
  | case2 sub ch rest ih1 ih2 =>
    intro hw
    obtain ⟨hs, hterm, hch, hrest, _⟩ := wfL_cons_parts hw
    rw [termLeafb]
    simp only [Bool.and_eq_true, Bool.or_eq_true]
    refine ⟨⟨?_, ih1 hch⟩, ih2 hrest⟩
    cases ht : isTermSub sub
    · exact Or.inl rfl
    · exact Or.inr (by rw [hterm ht]; rfl)

/-- Building a tree by inserting a list of keys into the empty tree, all
allocations succeeding. -/
def insertAll (S : List (List Nat)) : List Node :=
  S.foldl (fun t x => (radix_trie_insert [] t x).tree) []

theorem foldl_insert_spec (S : List (List Nat)) :
    ∀ t : List Node, wfL t = true → (∀ x ∈ S, (0 : Nat) ∉ x) →
      wfL (S.foldl (fun t x => (radix_trie_insert [] t x).tree) t) = true ∧
      ∀ y, y ∈ strs (S.foldl (fun t x => (radix_trie_insert [] t x).tree) t) ↔
        y ∈ strs t ∨ y ∈ S := by
  induction S with
  | nil =>
    intro t hw _
    simp only [List.foldl_nil]
    exact ⟨hw, by simp⟩
  | cons a S ih =>
    intro t hw h0
    have h0a : (0 : Nat) ∉ a := h0 a (List.mem_cons_self a S)
    obtain ⟨hw1, _, _, hmem⟩ := insert_spec [] t a hw h0a
    have herr := (insert_nofail [] t a rfl).1
    obtain ⟨ihw, ihmem⟩ := ih _ hw1 (fun x hx => h0 x (List.mem_cons_of_mem a hx))
    rw [List.foldl_cons]
    refine ⟨ihw, ?_⟩
    intro y
    rw [ihmem y, hmem herr y, List.mem_cons]
    tauto

theorem insertAll_spec (S : List (List Nat)) (h0 : ∀ x ∈ S, (0 : Nat) ∉ x) :
    wfL (insertAll S) = true ∧ ∀ y, y ∈ strs (insertAll S) ↔ y ∈ S := by
  obtain ⟨hw, hmem⟩ := foldl_insert_spec S [] wfL_nil h0
  refine ⟨hw, fun y => ?_⟩
  rw [insertAll, hmem y, strs_nil]
  simp

/-- A visitor that never stops and records every string it is shown. -/
theorem runVisits_collect (M : List (List Nat)) :
    ∀ s : List (List Nat),
      runVisits (fun x s2 => (false, s2 ++ [x])) M s = (s ++ M, false) := by
  induction M with
  | nil =>
    intro s
    simp [runVisits]
  | cons x xs ih =>
    intro s
    simp only [runVisits]
    rw [if_neg Bool.false_ne_true, ih]
    simp

/-- A visitor that records strings and requests a stop on the first string
satisfying `p`: it sees exactly the longest stop-free prefix, plus the
stopping string itself when there is one. -/
theorem runVisits_stop (p : List Nat → Bool) (M : List (List Nat)) :
    ∀ s : List (List Nat),
      (M.takeWhile (fun x => !p x) = M →
        runVisits (fun x s2 => (p x, s2 ++ [x])) M s = (s ++ M, false)) ∧
      (∀ y B, M = M.takeWhile (fun x => !p x) ++ y :: B →
        runVisits (fun x s2 => (p x, s2 ++ [x])) M s
          = (s ++ M.takeWhile (fun x => !p x) ++ [y], true)) := by
  induction M with
  | nil =>
    intro s
    refine ⟨fun _ => by simp [runVisits], ?_⟩
    intro y B hB
    rw [List.takeWhile_nil] at hB
    cases hB
  | cons x xs ih =>
    intro s
    cases hp : p x
    · have htw : (x :: xs).takeWhile (fun x => !p x)
          = x :: xs.takeWhile (fun x => !p x) := by
        simp [List.takeWhile_cons, hp]
      refine ⟨?_, ?_⟩
      · intro hM
        rw [htw] at hM
        have hxs : xs.takeWhile (fun x => !p x) = xs := by
          injection hM
        simp only [runVisits, hp]
        rw [if_neg Bool.false_ne_true, (ih (s ++ [x])).1 hxs]
        simp
      · intro y B hB
        rw [htw] at hB
        have hxs : xs = xs.takeWhile (fun x => !p x) ++ y :: B := by
          injection hB with _ h
        simp only [runVisits, hp]
        rw [if_neg Bool.false_ne_true, (ih (s ++ [x])).2 y B hxs, htw]
        simp
    · have htw : (x :: xs).takeWhile (fun x => !p x) = [] := by
        simp [List.takeWhile_cons, hp]
      refine ⟨?_, ?_⟩
      · intro hM
        rw [htw] at hM
        cases hM
      · intro y B hB
        rw [htw] at hB
        simp only [List.nil_append] at hB
        injection hB with h1 h2
        subst h1
        subst h2
        simp only [runVisits, hp]
        rw [if_pos trivial, htw]
        simp

theorem map_take_eq_self {M : List (List Nat)} {k : Nat} (h : ∀ x ∈ M, x.length ≤ k) :
    M.map (fun x => x.take k) = M := by
  conv_rhs => rw [← List.map_id M]
  apply List.map_congr_left
  intro x hx
  show x.take k = x
  exact List.take_of_length_le (h x hx)

/-- C1: round-trip.  Insert every member of a list `S` of terminator-free
keys into an initially empty tree with all allocations succeeding, then run
`radix_trie_foreach` with a collecting visitor and a buffer big enough for
every member: the visited strings are exactly the members of `S`, each
exactly once (no duplicates), in strictly ascending raw byte order, and the
call reports completion (0), not early termination. -/
theorem claim_C1 (S : List (List Nat)) (buf : List Nat)
    (h0 : ∀ x ∈ S, (0 : Nat) ∉ x) (hfit : ∀ x ∈ S, x.length ≤ buf.length - 1)
    (hL : 1 ≤ buf.length) :
    (radix_trie_foreach (fun b s2 => (false, s2 ++ [cstr b])) (insertAll S) buf
        ([] : List (List Nat))).2.2.Sorted (List.Lex (· < ·)) ∧
    (radix_trie_foreach (fun b s2 => (false, s2 ++ [cstr b])) (insertAll S) buf
        ([] : List (List Nat))).2.2.Nodup ∧
    (∀ y, y ∈ (radix_trie_foreach (fun b s2 => (false, s2 ++ [cstr b])) (insertAll S)
        buf ([] : List (List Nat))).2.2 ↔ y ∈ S) ∧
    (radix_trie_foreach (fun b s2 => (false, s2 ++ [cstr b])) (insertAll S) buf
        ([] : List (List Nat))).1 = 0 := by
  have hfn : (fun b s2 => ((false, s2 ++ [cstr b]) : Bool × List (List Nat)))
      = fun b s2 =>
          (fun x s2 => ((false, s2 ++ [x]) : Bool × List (List Nat))) (cstr b) s2 := rfl
  rw [hfn]
  obtain ⟨hw, hmem⟩ := insertAll_spec S h0
  have hfit2 : ∀ x ∈ strs (insertAll S), x.length ≤ buf.length - 1 :=
    fun x hx => hfit x ((hmem x).mp hx)
  obtain ⟨hstate, hcode, _⟩ := foreach_spec
    (fun x s2 => ((false, s2 ++ [x]) : Bool × List (List Nat))) (insertAll S) buf [] hw hL
  rw [map_take_eq_self hfit2, runVisits_collect] at hstate hcode
  simp only [List.nil_append] at hstate hcode
  rw [hstate, hcode]
  exact ⟨strs_sorted hw, strs_nodup hw, hmem, rfl⟩

/-- C2 (amended): if `radix_trie_insert` fails because an allocation failed,
the stored set of strings is exactly what it was before the call and the
tree is still well formed — but the tree is not necessarily left in
canonical compressed form: a suffix allocation that fails after the split
already committed leaves the partial split (a non-terminal node with a
single child) in the structure. -/
theorem claim_C2 (al : List Bool) (ns : List Node) (str : List Nat)
    (hw : wfL ns = true) (h0 : (0 : Nat) ∉ str)
    (herr : (radix_trie_insert al ns str).err = true) :
    strs (radix_trie_insert al ns str).tree = strs ns ∧
    wfL (radix_trie_insert al ns str).tree = true :=
  ⟨(insert_spec al ns str hw h0).2.2.1 herr, (insert_spec al ns str hw h0).1⟩

theorem claim_C2_witness :
    (radix_trie_insert [false] [] [1]).err = true ∧
    strs (radix_trie_insert [false] [] [1]).tree = strs [] :=
  ⟨by simp [radix_trie_insert, radix_trie_make_suffix, popA],
   (claim_C2 [false] [] [1] wfL_nil (by decide)
     (by simp [radix_trie_insert, radix_trie_make_suffix, popA])).1⟩

/-- C2 counterexample to the frozen claim: inserting [1,3] into the
canonical tree holding exactly [1,2], with the split allocation succeeding
and the subsequent suffix allocation failing, returns an error but leaves
the committed split behind: the tree is no longer canonical (a non-terminal
node keeps exactly one child), so it is not "left exactly as it was". -/
theorem claim_C2_counterexample :
    (radix_trie_insert [true, false] (radix_trie_insert [] [] [1, 2]).tree [1, 3]).err
        = true ∧
    noLoneChild (radix_trie_insert [] [] [1, 2]).tree = true ∧
    noLoneChild
        (radix_trie_insert [true, false] (radix_trie_insert [] [] [1, 2]).tree
          [1, 3]).tree = false := by
  refine ⟨?_, ?_, ?_⟩ <;>
    simp [radix_trie_insert, radix_trie_make_suffix, radix_trie_split, popA, cdiff,
      noLoneChild, isTermSub, Node.children, Node.substr]

/-- C3: the code cannot report NotFound.  `radix_trie_delete`'s result is 0
or -1 for every oracle, tree and string — there is no path returning the
positive value the header documents for an absent key — and in particular
deleting the absent key [1] from the empty tree returns 0, the same code as
a successful removal. -/
theorem claim_C3 :
    (∀ (al : List Bool) (t : List Node) (str : List Nat),
      (radix_trie_delete al t str).1 = 0 ∨ (radix_trie_delete al t str).1 = -1) ∧
    (radix_trie_delete [] [] [1]).1 = 0 :=
  ⟨fun al t str => delGo_res_mem al t str, by simp [radix_trie_delete, delGo]⟩

/-- C4 (amended): for a well-formed canonical tree holding terminator-free
keys, `radix_trie_match` returns true exactly when some member starts with
the queried byte sequence; hence the empty prefix matches exactly when the
set is nonempty, and on the empty tree (NULL root) every prefix — the empty
prefix included — returns false, not true. -/
theorem claim_C4 (ns : List Node) (pre : List Nat) (hw : wfL ns = true)
    (hc : canonB ns = true) (h0 : (0 : Nat) ∉ pre) :
    (radix_trie_match ns pre = true ↔ ∃ m ∈ strs ns, ∃ t2, m = pre ++ t2) ∧
    radix_trie_match [] pre = false :=
  ⟨match_iff hw hc h0, match_eq_nil pre⟩

theorem claim_C4_witness :
    wfL (insertAll [[1]]) = true ∧
    (radix_trie_match (insertAll [[1]]) [1] = true ↔
      ∃ m ∈ strs (insertAll [[1]]), ∃ t2, m = [1] ++ t2) :=
  ⟨by simp [insertAll, radix_trie_insert, radix_trie_make_suffix, popA, wfL, subOKb,
      isTermSub],
   (claim_C4 (insertAll [[1]]) [1]
     (by simp [insertAll, radix_trie_insert, radix_trie_make_suffix, popA, wfL, subOKb,
       isTermSub])
     (by simp [insertAll, radix_trie_insert, radix_trie_make_suffix, popA, canonB,
       isTermSub])
     (by decide)).1⟩

/-- C4 counterexample to the frozen claim: on the empty tree (NULL root)
the empty prefix does not match — `radix_trie_match` returns false, because
the C do/while body dereferences the sibling list once before the
empty-prefix test can succeed. -/
theorem claim_C4_counterexample : radix_trie_match [] [] = false :=
  match_eq_nil []

/-- C5: deletion removes exactly the requested key, whatever the allocation
oracle — a fuse failure included: afterwards lookup of the key is false,
lookup of every other terminator-free key is unchanged, and the stored
list of strings is the old one with the key filtered out. -/
theorem claim_C5 (al : List Bool) (ns : List Node) (str : List Nat)
    (hw : wfL ns = true) (h0 : (0 : Nat) ∉ str) :
    radix_trie_lookup (radix_trie_delete al ns str).2.1 str = false ∧
    (∀ x, (0 : Nat) ∉ x → x ≠ str →
      radix_trie_lookup (radix_trie_delete al ns str).2.1 x = radix_trie_lookup ns x) ∧
    strs (radix_trie_delete al ns str).2.1 = (strs ns).filter (fun x => x ≠ str) := by
  obtain ⟨hw2, _, hstrs, _, _, _⟩ := delete_spec al ns str hw h0
  have htree : (radix_trie_delete al ns str).2.1 = (delGo al ns str).tree := rfl
  rw [htree]
  refine ⟨?_, ?_, hstrs⟩
  · cases hl : radix_trie_lookup (delGo al ns str).tree str
    · rfl
    · have hmem := (lookup_iff hw2 h0).mp hl
      rw [hstrs, List.mem_filter] at hmem
      simp at hmem
  · intro x hx0 hxne
    apply Bool.eq_iff_iff.mpr
    rw [lookup_iff hw2 hx0, lookup_iff hw hx0, hstrs, List.mem_filter]
    constructor
    · exact fun h => h.1
    · intro h
      refine ⟨h, ?_⟩
      simpa using hxne

theorem claim_C5_witness :
    wfL (insertAll [[1], [2]]) = true ∧
    radix_trie_lookup (radix_trie_delete [] (insertAll [[1], [2]]) [1]).2.1 [1] = false :=
  ⟨by simp [insertAll, radix_trie_insert, radix_trie_make_suffix, popA, cdiff, wfL,
      subOKb, isTermSub],
   (claim_C5 [] (insertAll [[1], [2]]) [1]
     (by simp [insertAll, radix_trie_insert, radix_trie_make_suffix, popA, cdiff, wfL,
       subOKb, isTermSub])
     (by decide)).1⟩

/-- C6 (amended): after every insert/delete sequence in which every
allocation succeeds — so in particular no fuse attempt fails — the tree is
canonical: no non-terminal node has exactly one child.  The frozen claim's
weaker precondition (only that no fuse attempt failed) is not enough: an
insert whose suffix allocation fails after a committed split breaks
canonicity without any fuse having been attempted. -/
theorem claim_C6 {t : List Node} (h : ReachableOk t) : noLoneChild t = true :=
  noLone_of_canon t (reachableOk_wf_canon h).2

theorem claim_C6_witness :
    noLoneChild (radix_trie_insert [] [] [1]).tree = true :=
  claim_C6 (ReachableOk.ins [1] ReachableOk.empty (by decide))

/-- C6 counterexample to the frozen claim: the tree reached by inserting
[5,7] (all allocations succeeding) and then inserting [5,6] with the split
allocation succeeding and the suffix allocation failing contains a
non-terminal node with exactly one child, although the sequence contains no
delete and hence no fuse attempt at all, failed or otherwise. -/
theorem claim_C6_counterexample :
    Reachable
        (radix_trie_insert [true, false] (radix_trie_insert [] [] [5, 7]).tree
          [5, 6]).tree ∧
    noLoneChild
        (radix_trie_insert [true, false] (radix_trie_insert [] [] [5, 7]).tree
          [5, 6]).tree = false :=
  ⟨Reachable.ins [true, false] [5, 6]
      (Reachable.ins [] [5, 7] Reachable.empty (by decide)) (by decide),
   by simp [radix_trie_insert, radix_trie_make_suffix, radix_trie_split, popA, cdiff,
     noLoneChild, isTermSub, Node.children, Node.substr]⟩

/-- C7: early termination.  Run `radix_trie_foreach` with a visitor that
records every string it is shown and requests a stop exactly on strings
satisfying `p`, over a buffer big enough for every member.  If no member
triggers `p` the visitor sees every member (the whole sorted list) and the
call returns 0; if some member triggers `p` the visitor sees exactly the
members before the first triggering one — in sorted order — plus that
member as its last visit, no further visits occur, and the call returns
the early-termination code 1. -/
theorem claim_C7 (p : List Nat → Bool) (t : List Node) (buf : List Nat)
    (hw : wfL t = true) (hL : 1 ≤ buf.length)
    (hfit : ∀ x ∈ strs t, x.length ≤ buf.length - 1) :
    ((strs t).takeWhile (fun x => !p x) = strs t →
      (radix_trie_foreach (fun b s2 => (p (cstr b), s2 ++ [cstr b])) t buf
          ([] : List (List Nat))).2.2 = strs t ∧
      (radix_trie_foreach (fun b s2 => (p (cstr b), s2 ++ [cstr b])) t buf
          ([] : List (List Nat))).1 = 0) ∧
    (∀ y B, strs t = (strs t).takeWhile (fun x => !p x) ++ y :: B →
      (radix_trie_foreach (fun b s2 => (p (cstr b), s2 ++ [cstr b])) t buf
          ([] : List (List Nat))).2.2
        = (strs t).takeWhile (fun x => !p x) ++ [y] ∧
      (radix_trie_foreach (fun b s2 => (p (cstr b), s2 ++ [cstr b])) t buf
          ([] : List (List Nat))).1 = 1) := by
  have hfn : (fun b s2 => ((p (cstr b), s2 ++ [cstr b]) : Bool × List (List Nat)))
      = fun b s2 =>
          (fun x s2 => ((p x, s2 ++ [x]) : Bool × List (List Nat))) (cstr b) s2 := rfl
  rw [hfn]
  obtain ⟨hstate, hcode, _⟩ := foreach_spec
    (fun x s2 => ((p x, s2 ++ [x]) : Bool × List (List Nat))) t buf [] hw hL
  rw [map_take_eq_self hfit] at hstate hcode
  constructor
  · intro hall
    rw [(runVisits_stop p (strs t) []).1 hall] at hstate hcode
    simp only [List.nil_append] at hstate hcode
    rw [hstate, hcode]
    exact ⟨rfl, rfl⟩
  · intro y B hsplit
    rw [(runVisits_stop p (strs t) []).2 y B hsplit] at hstate hcode
    simp only [List.nil_append] at hstate hcode
    rw [hstate, hcode]
    exact ⟨rfl, rfl⟩

theorem claim_C7_witness :
    (strs (insertAll [[1], [2], [3]])
        = (strs (insertAll [[1], [2], [3]])).takeWhile (fun x => !decide (x = [2]))
          ++ [2] :: [[3]]) ∧
    ((radix_trie_foreach (fun b s2 => (decide (cstr b = [2]), s2 ++ [cstr b]))
        (insertAll [[1], [2], [3]]) [9, 9, 9] ([] : List (List Nat))).2.2
      = (strs (insertAll [[1], [2], [3]])).takeWhile (fun x => !decide (x = [2]))
          ++ [[2]] ∧
     (radix_trie_foreach (fun b s2 => (decide (cstr b = [2]), s2 ++ [cstr b]))
        (insertAll [[1], [2], [3]]) [9, 9, 9] ([] : List (List Nat))).1 = 1) :=
  ⟨by simp [insertAll, radix_trie_insert, radix_trie_make_suffix, popA, cdiff, strs,
      isTermSub, List.takeWhile],
   (claim_C7 (fun x => decide (x = [2])) (insertAll [[1], [2], [3]]) [9, 9, 9]
     (by simp [insertAll, radix_trie_insert, radix_trie_make_suffix, popA, cdiff, wfL,
       subOKb, isTermSub])
     (by decide)
     (by simp [insertAll, radix_trie_insert, radix_trie_make_suffix, popA, cdiff, strs,
       isTermSub])).2 [2] [[3]]
     (by simp [insertAll, radix_trie_insert, radix_trie_make_suffix, popA, cdiff, strs,
       isTermSub, List.takeWhile])⟩

/-- C8: buffer truncation.  For every buffer of length at least 1, every
member string — the ones longer than the buffer included — is still
visited, with no error: the visitor reads back exactly the member's first
len-1 bytes (the nul force-written at the buffer's last cell cuts the
reconstruction there), and the buffer never grows — no more than len bytes
are ever written. -/
theorem claim_C8 (t : List Node) (buf : List Nat) (hw : wfL t = true)
    (hL : 1 ≤ buf.length) :
    (radix_trie_foreach (fun b s2 => (false, s2 ++ [cstr b])) t buf
        ([] : List (List Nat))).2.2
      = (strs t).map (fun x => x.take (buf.length - 1)) ∧
    (∀ x ∈ strs t, x.take (buf.length - 1) ∈
      (radix_trie_foreach (fun b s2 => (false, s2 ++ [cstr b])) t buf
        ([] : List (List Nat))).2.2) ∧
    (radix_trie_foreach (fun b s2 => (false, s2 ++ [cstr b])) t buf
        ([] : List (List Nat))).2.1.length = buf.length := by
  have hfn : (fun b s2 => ((false, s2 ++ [cstr b]) : Bool × List (List Nat)))
      = fun b s2 =>
          (fun x s2 => ((false, s2 ++ [x]) : Bool × List (List Nat))) (cstr b) s2 := rfl
  rw [hfn]
  obtain ⟨hstate, _, hbuf⟩ := foreach_spec
    (fun x s2 => ((false, s2 ++ [x]) : Bool × List (List Nat))) t buf [] hw hL
  rw [runVisits_collect] at hstate
  simp only [List.nil_append] at hstate
  rw [hstate]
  refine ⟨rfl, ?_, hbuf⟩
  intro x hx
  exact List.mem_map_of_mem _ hx

theorem claim_C8_witness :
    wfL (insertAll [[1, 2, 3, 4]]) = true ∧
    (radix_trie_foreach (fun b s2 => (false, s2 ++ [cstr b])) (insertAll [[1, 2, 3, 4]])
        [7, 7, 7] ([] : List (List Nat))).2.2
      = (strs (insertAll [[1, 2, 3, 4]])).map (fun x => x.take 2) :=
  ⟨by simp [insertAll, radix_trie_insert, radix_trie_make_suffix, popA, wfL, subOKb,
      isTermSub],
   (claim_C8 (insertAll [[1, 2, 3, 4]]) [7, 7, 7]
     (by simp [insertAll, radix_trie_insert, radix_trie_make_suffix, popA, wfL, subOKb,
       isTermSub])
     (by decide)).1⟩

/-- C9: in every tree reachable from the empty tree by insert and delete
calls with arbitrary allocation outcomes, every terminal node — one whose
substring ends in the terminator byte — has no children: a stored string
that is a strict prefix of another is held as a non-terminal parent with a
separate terminator-only child, so splicing a matched node out of its
sibling list never detaches live children. -/
theorem claim_C9 {t : List Node} (h : Reachable t) : termLeafb t = true :=
  termLeaf_of_wf t (reachable_wf h)

theorem claim_C9_witness :
    termLeafb (radix_trie_insert [] [] [1]).tree = true :=
  claim_C9 (Reachable.ins [] [1] Reachable.empty (by decide))

/-- C10: a zero-length caller-supplied buffer makes `radix_trie_foreach`
skip the walk entirely: for every tree, visitor and state it performs no
visit and returns the completed code 0 with everything unchanged. -/
theorem claim_C10 {σ : Type} (fn : List Nat → σ → Bool × σ) (t : List Node) (s : σ) :
    radix_trie_foreach fn t ([] : List Nat) s = (0, [], s) := rfl

theorem claim_C1_witness :
    (∀ x ∈ ([[2, 1], [1]] : List (List Nat)), (0 : Nat) ∉ x) ∧
    (∀ y, y ∈ (radix_trie_foreach (fun b s2 => (false, s2 ++ [cstr b]))
        (insertAll [[2, 1], [1]]) [9, 9, 9] ([] : List (List Nat))).2.2 ↔
      y ∈ ([[2, 1], [1]] : List (List Nat))) :=
  ⟨by decide,
   (claim_C1 [[2, 1], [1]] [9, 9, 9] (by decide) (by decide) (by decide)).2.2.1⟩
